import Mathlib

/-!
# A verification development for `walk.go`

`walk.go` is a non-recursive file-tree walker.  `Walk` remembers the working
directory, changes into the parent of the root and calls `walkiter`, which
drives an explicit stack (`queue`, linked through `next`) of pending entries and
moves the process's working directory with `os.Chdir` while it descends and
ascends.

The development is organised as follows.

* `Clean`, `Join`, `Dir`: the path functions of the Go standard library that
  the walker calls, following their documented rules for slash-separated paths.
* `OS`: the system calls the walker consumes, as a record of functions over an
  arbitrary type of worlds.  General theorems are proved for every `OS`.
* `walkiterStep`, `walkiter`, `Walk`: the embedding of the two functions of
  `walk.go`.  One call of `walkiterStep` is one iteration of the `for` loop.
* `Forest`, `realizes`, `walkF`: finite directory contents, the statement that
  a world presents such a content, and the recursive description of the walk.
* `Inode`, `World`, `tableOS`: a small executable file system with a
  descriptor table, used to evaluate the walker on concrete inputs.
-/

namespace WalkGo

/-! ## Path functions of the standard library -/

/-- Components of a path: the pieces between slashes, as `strings.Split(s, "/")`. -/
def splitSlash : List Char → List (List Char)
  | [] => [[]]
  | c :: cs =>
    if c = '/' then [] :: splitSlash cs
    else match splitSlash cs with
      | [] => [[c]]
      | x :: xs => (c :: x) :: xs

/-- The rewriting loop of `path.Clean` over components: empty components and `.`
are dropped, `..` removes the component before it unless that is itself `..`,
and a `..` at the start of a rooted path is dropped.  `out` is the reversed
output so far. -/
def cleanComps (rooted : Bool) : List (List Char) → List (List Char) → List (List Char)
  | out, [] => out.reverse
  | out, c :: cs =>
    if c = [] ∨ c = ['.'] then cleanComps rooted out cs
    else if c = ['.', '.'] then
      match out with
      | top :: out' =>
        if top = ['.', '.'] then cleanComps rooted (c :: out) cs
        else cleanComps rooted out' cs
      | [] => if rooted then cleanComps rooted [] cs else cleanComps rooted [c] cs
    else cleanComps rooted (c :: out) cs

/-- Components joined with single slashes. -/
def joinSlash : List (List Char) → List Char
  | [] => []
  | [c] => c
  | c :: cs => c ++ '/' :: joinSlash cs

/-- Does the path start with a slash? -/
def isRooted : List Char → Bool
  | [] => false
  | c :: _ => c = '/'

/-- The characters of the cleaned path: the kept components joined by slashes,
after a slash if the path is rooted; `.` if that is empty. -/
def cleanData (d : List Char) : List Char :=
  let body := joinSlash (cleanComps (isRooted d) [] (splitSlash d))
  let r := if isRooted d then '/' :: body else body
  if r = [] then ['.'] else r

/-- Go's `path.Clean`: the shortest path name equivalent to `path` by purely
lexical processing; the empty result is `"."`. -/
def Clean (path : String) : String :=
  String.mk (cleanData path.data)

/-- Go's `filepath.Join` for two elements: empty elements are ignored and the
result is cleaned; two empty elements give the empty string. -/
def Join (dir name : String) : String :=
  if dir ≠ "" then Clean (dir ++ "/" ++ name)
  else if name ≠ "" then Clean name
  else ""

/-- The prefix of a path up to and including its last slash. -/
def uptoLastSlash : List Char → List Char
  | [] => []
  | c :: cs =>
    if cs.contains '/' then c :: uptoLastSlash cs
    else if c = '/' then [c] else []

/-- Go's `filepath.Dir`: all but the last element of the path, cleaned. -/
def Dir (path : String) : String :=
  Clean (String.mk (uptoLastSlash path.data))

/-- A component that `Clean` keeps. -/
def Good (c : List Char) : Prop := c ≠ [] ∧ c ≠ ['.'] ∧ '/' ∉ c

/-- Cleaned component lists, last component first: every component is kept by
`Clean`, and `..` occurs only at the start of a path that is not rooted. -/
def NFr (rooted : Bool) : List (List Char) → Prop
  | [] => True
  | c :: out => Good c ∧ NFr rooted out ∧ (c = ['.', '.'] → rooted = false ∧ ∀ x ∈ out, x = ['.', '.'])

/-! ## Errors, file information, callbacks -/

/-- Error numbers of failed system calls. -/
abbrev Errno := Nat

def ENOENT : Errno := 2
def EBADF : Errno := 9
def EACCES : Errno := 13
def ENOTDIR : Errno := 20

/-- File descriptors. -/
abbrev Fd := Nat

/-- Go `error` values that occur in a walk (`nil` is `none : Option GoError`).
`SkipDir` is the sentinel `filepath.SkipDir`; `sys` wraps the error of a failed
system call; `user` is any other error a callback may return; `dotdot` is the
error built by `fmt.Errorf` when `os.Chdir("..")` fails, with the path, the
working directory, the error and the `Getwd` error that are formatted into it. -/
inductive GoError where
  | SkipDir : GoError
  | sys (e : Errno) : GoError
  | user (msg : String) : GoError
  | dotdot (path : String) (cwd : String) (err : Errno) (err2 : Option Errno) : GoError
  deriving DecidableEq, Repr

/-- What the walker uses of `os.FileInfo`: the answer of `IsDir()`. -/
structure FileInfo where
  IsDir : Bool
  deriving DecidableEq, Repr

/-- A `filepath.WalkFunc`; a Go closure may carry state, here of type `σ`.  The
callback is taken not to change the file system or the working directory. -/
abbrev WalkFunc (σ : Type) :=
  σ → String → Option FileInfo → Option GoError → σ × Option GoError

/-- The system calls used by `walk.go`.  A failed call leaves the world as it
was.  `Open` returns the descriptor of the opened directory. -/
structure OS (W : Type) where
  Lstat : W → String → Except Errno FileInfo
  Chdir : W → String → Except Errno W
  Getwd : W → String × Option Errno
  Open : W → String → Except Errno (Fd × W)
  Readdirnames : W → Fd → List String × Option Errno × W
  Close : W → Fd → W
  Fchdir : W → Fd → Except Errno W
  Fcntl : W → Fd → W

/-! ## The walker -/

/-- The `queue` struct; the `next` link is the tail of the list holding it. -/
structure queue where
  dir : String
  name : String
  seen : Bool
  cd : Bool
  deriving DecidableEq, Repr

/-- Observable actions of a walk, in the order they happen: calls of the
callback with their arguments and result, `os.Chdir(s.name)` and
`os.Chdir("..")` with the logical path of the element issuing them and whether
they succeeded. -/
inductive Event where
  | call (path : String) (info : Option FileInfo) (err : Option GoError)
      (ret : Option GoError) : Event
  | chdir (path : String) (ok : Bool) : Event
  | dotdot (path : String) (ok : Bool) : Event
  deriving DecidableEq, Repr

/-- The variables of `walkiter` (`s`, `haderror`), the world, the state of the
callback, and the record of what has happened. -/
structure State (W σ : Type) where
  s : List queue
  haderror : Option GoError
  world : W
  cb : σ
  trace : List Event

/-- Result of one iteration of the loop: go round again, or `return`. -/
inductive Outcome (W σ : Type) where
  | cont (st : State W σ) : Outcome W σ
  | ret (err : Option GoError) (st : State W σ) : Outcome W σ

/-- A call `walkFn(path, info, err)`, recorded in the trace. -/
def invoke {W σ : Type} (walkFn : WalkFunc σ) (st : State W σ) (path : String)
    (info : Option FileInfo) (err : Option GoError) : State W σ × Option GoError :=
  let r := walkFn st.cb path info err
  ({ st with cb := r.1, trace := st.trace ++ [Event.call path info err r.2] }, r.2)

/-- The loop `for _, name := range names` pushing one element per name. -/
def pushNames (ourname : String) (names : List String) (s : List queue) : List queue :=
  names.foldl (fun acc name => { dir := ourname, name := name, seen := false, cd := false } :: acc) s

/-- One iteration of the `for` loop of `walkiter`. -/
def walkiterStep {W σ : Type} (os : OS W) (walkFn : WalkFunc σ) (st : State W σ) :
    Outcome W σ :=
  match st.s with
  | [] => .ret st.haderror st
  | s :: next =>
    if s.seen then
      if s.cd then
        match os.Chdir st.world ".." with
        | .error err =>
          let g := os.Getwd st.world
          .ret (some (.dotdot (Join s.dir s.name) g.1 err g.2))
            { st with trace := st.trace ++ [Event.dotdot (Join s.dir s.name) false] }
        | .ok w =>
          .cont { st with s := next, world := w,
                          trace := st.trace ++ [Event.dotdot (Join s.dir s.name) true] }
      else .cont { st with s := next }
    else
      let s1 : queue := { s with seen := true }
      let ourname := Join s.dir s.name
      match os.Lstat st.world s.name with
      | .error err =>
        let r := invoke walkFn { st with s := s1 :: next } ourname none (some (.sys err))
        .cont { r.1 with haderror := r.2 }
      | .ok info =>
        let r := invoke walkFn { st with s := s1 :: next } ourname (some info) none
        match r.2 with
        | some err =>
          if info.IsDir && err = GoError.SkipDir then .cont r.1
          else .cont { r.1 with haderror := some err }
        | none =>
          if info.IsDir then
            match os.Chdir st.world s.name with
            | .error err =>
              let r2 := invoke walkFn { r.1 with trace := r.1.trace ++ [Event.chdir ourname false] }
                ourname (some info) (some (.sys err))
              .cont { r2.1 with haderror := r2.2 }
            | .ok w1 =>
              let s2 : queue := { s1 with cd := true }
              let st1 : State W σ :=
                { r.1 with s := s2 :: next, world := w1,
                           trace := r.1.trace ++ [Event.chdir ourname true] }
              match os.Open w1 "." with
              | .error err =>
                let r2 := invoke walkFn st1 ourname (some info) (some (.sys err))
                .cont { r2.1 with haderror := r2.2 }
              | .ok (file, w2) =>
                let l := os.Readdirnames w2 file
                let st2 : State W σ :=
                  match l.2.1 with
                  | some err =>
                    let r2 := invoke walkFn { st1 with world := l.2.2 } ourname (some info)
                      (some (.sys err))
                    { r2.1 with haderror := r2.2 }
                  | none => { st1 with world := l.2.2 }
                .cont { st2 with s := pushNames ourname l.1 (s2 :: next),
                                 world := os.Close st2.world file }
          else .cont r.1

/-- The loop of `walkiter`, run for at most `fuel` iterations; `none` when the
loop has not returned by then. -/
def walkiterFrom {W σ : Type} (os : OS W) (walkFn : WalkFunc σ) :
    Nat → State W σ → Option (Option GoError × State W σ)
  | 0, _ => none
  | fuel + 1, st =>
    match walkiterStep os walkFn st with
    | .ret err st1 => some (err, st1)
    | .cont st1 => walkiterFrom os walkFn fuel st1

/-- A call `walkiter(s, walkFn)`: `haderror` starts as `nil`. -/
def walkiter {W σ : Type} (os : OS W) (walkFn : WalkFunc σ) (fuel : Nat)
    (s : List queue) (w : W) (cb : σ) (trace : List Event) :
    Option (Option GoError × State W σ) :=
  walkiterFrom os walkFn fuel { s := s, haderror := none, world := w, cb := cb, trace := trace }

/-- What a call of `Walk` leaves behind: the returned error, the world, the
state of the callback and the trace. -/
structure Result (W σ : Type) where
  err : Option GoError
  world : W
  cb : σ
  trace : List Event

/-- The body of `Walk` after the two `defer` statements, up to its `return`. -/
def WalkBody {W σ : Type} (os : OS W) (walkFn : WalkFunc σ) (fuel : Nat) (root : String)
    (w : W) (cb : σ) : Option (Result W σ) :=
  match os.Chdir w (Dir root) with
  | .error err =>
    let r := walkFn cb root none (some (.sys err))
    some { err := r.2, world := w, cb := r.1,
           trace := [Event.call root none (some (.sys err)) r.2] }
  | .ok w1 =>
    match walkiter os walkFn fuel [{ dir := "", name := root, seen := false, cd := false }]
        w1 cb [] with
    | none => none
    | some (err, st) => some { err := err, world := st.world, cb := st.cb, trace := st.trace }

/-- The function `Walk`.  The deferred calls run when the body returns, last
deferred first: `dir.Close()`, then `syscall.Fchdir` with the descriptor number
that was evaluated when the `defer` statement was executed. -/
def Walk {W σ : Type} (os : OS W) (walkFn : WalkFunc σ) (fuel : Nat) (root : String)
    (w : W) (cb : σ) : Option (Result W σ) :=
  let root := Clean root
  match os.Open w "." with
  | .error err => some { err := some (.sys err), world := w, cb := cb, trace := [] }
  | .ok (dir, w1) =>
    let w2 := os.Fcntl w1 dir
    let fd := dir
    match WalkBody os walkFn fuel root w2 cb with
    | none => none
    | some r =>
      let w3 := os.Close r.world dir
      let w4 := match os.Fchdir w3 fd with
        | .error _ => w3
        | .ok w5 => w5
      some { r with world := w4 }

/-! ## Finite directory contents and the recursive description of the walk -/

/-- The content of a directory, in the order `Readdirnames` lists it: each
constructor describes the first entry and is followed by the `rest` of the
entries.  `file` is an entry that `lstat` reports as a non-directory, `dir` a
directory with content `kids` on which every call succeeds, `bad` an entry whose
`lstat` fails, `nochdir` a directory that cannot be entered, `noopen` a
directory that can be entered but not opened, `badlist` a directory whose
listing returns the names of `kids` together with an error. -/
inductive Forest where
  | nil : Forest
  | file (name : String) (rest : Forest) : Forest
  | dir (name : String) (kids : Forest) (rest : Forest) : Forest
  | bad (name : String) (err : Errno) (rest : Forest) : Forest
  | nochdir (name : String) (err : Errno) (rest : Forest) : Forest
  | noopen (name : String) (err : Errno) (rest : Forest) : Forest
  | badlist (name : String) (err : Errno) (kids : Forest) (rest : Forest) : Forest
  deriving DecidableEq, Repr

namespace Forest

/-- The names of the entries, in listing order. -/
def names : Forest → List String
  | nil => []
  | file n r => n :: names r
  | dir n _ r => n :: names r
  | bad n _ r => n :: names r
  | nochdir n _ r => n :: names r
  | noopen n _ r => n :: names r
  | badlist n _ _ r => n :: names r

/-- The number of files and directories, at every depth. -/
def size : Forest → Nat
  | nil => 0
  | file _ r => size r + 1
  | dir _ k r => size r + size k + 1
  | bad _ _ r => size r + 1
  | nochdir _ _ r => size r + 1
  | noopen _ _ r => size r + 1
  | badlist _ _ k r => size r + size k + 1

/-- No system call fails anywhere in the content. -/
def errorFree : Forest → Bool
  | nil => true
  | file _ r => errorFree r
  | dir _ k r => errorFree k && errorFree r
  | _ => false

end Forest

/-- World `w` presents the content `F` in its working directory: `lstat` of each
name answers as the entry says; for a directory, `chdir` into it, opening `"."`,
listing and closing behave as the entry says, the content of the directory is
presented in the world reached, the descriptor table is as before once the
listing is closed, and `chdir("..")` leads back to `w`. -/
def realizes {W : Type} [DecidableEq W] (os : OS W) (w : W) : Forest → Bool
  | .nil => true
  | .file n r =>
    realizes os w r &&
    (match os.Lstat w n with
     | .ok i => !i.IsDir
     | .error _ => false)
  | .bad n e r =>
    realizes os w r &&
    (match os.Lstat w n with
     | .ok _ => false
     | .error e1 => e1 = e)
  | .nochdir n e r =>
    realizes os w r &&
    (match os.Lstat w n with
     | .ok i => i.IsDir
     | .error _ => false) &&
    (match os.Chdir w n with
     | .ok _ => false
     | .error e1 => e1 = e)
  | .noopen n e r =>
    realizes os w r &&
    (match os.Lstat w n with
     | .ok i => i.IsDir
     | .error _ => false) &&
    (match os.Chdir w n with
     | .error _ => false
     | .ok w1 =>
       (match os.Open w1 "." with
        | .ok _ => false
        | .error e1 => e1 = e) &&
       (match os.Chdir w1 ".." with
        | .ok w2 => w2 = w
        | .error _ => false))
  | .dir n k r =>
    realizes os w r &&
    (match os.Lstat w n with
     | .ok i => i.IsDir
     | .error _ => false) &&
    (match os.Chdir w n with
     | .error _ => false
     | .ok w1 =>
       (match os.Open w1 "." with
        | .error _ => false
        | .ok (fd, w2) =>
          (os.Readdirnames w2 fd).1 = k.names && (os.Readdirnames w2 fd).2.1 = none &&
          os.Close (os.Readdirnames w2 fd).2.2 fd = w1) &&
       realizes os w1 k &&
       (match os.Chdir w1 ".." with
        | .ok w2 => w2 = w
        | .error _ => false))
  | .badlist n e k r =>
    realizes os w r &&
    (match os.Lstat w n with
     | .ok i => i.IsDir
     | .error _ => false) &&
    (match os.Chdir w n with
     | .error _ => false
     | .ok w1 =>
       (match os.Open w1 "." with
        | .error _ => false
        | .ok (fd, w2) =>
          (os.Readdirnames w2 fd).1 = k.names && (os.Readdirnames w2 fd).2.1 = some e &&
          os.Close (os.Readdirnames w2 fd).2.2 fd = w1) &&
       realizes os w1 k &&
       (match os.Chdir w1 ".." with
        | .ok w2 => w2 = w
        | .error _ => false))

/-- The part of the walker's state that a visit changes besides the stack and
the world: the state of the callback, `haderror`, and the trace. -/
structure Acc (σ : Type) where
  cb : σ
  haderror : Option GoError
  trace : List Event

/-- A call of the callback from accumulator `a`. -/
def Acc.call {σ : Type} (walkFn : WalkFunc σ) (a : Acc σ) (path : String)
    (info : Option FileInfo) (err : Option GoError) : Acc σ × Option GoError :=
  let r := walkFn a.cb path info err
  ({ a with cb := r.1, trace := a.trace ++ [Event.call path info err r.2] }, r.2)

/-- An event appended to the trace. -/
def Acc.log {σ : Type} (a : Acc σ) (e : Event) : Acc σ :=
  { a with trace := a.trace ++ [e] }

/-- The assignment `haderror = walkFn(ourname, info, err)` that reports the error
of a failed system call to the callback. -/
def Acc.report {σ : Type} (walkFn : WalkFunc σ) (a : Acc σ) (path : String)
    (info : Option FileInfo) (err : Errno) : Acc σ :=
  { (a.call walkFn path info (some (.sys err))).1 with
    haderror := (a.call walkFn path info (some (.sys err))).2 }

/-- The walker's state with stack `s`, world `w` and accumulator `a`. -/
def mkState {W σ : Type} (s : List queue) (w : W) (a : Acc σ) : State W σ :=
  { s := s, haderror := a.haderror, world := w, cb := a.cb, trace := a.trace }

/-- The walk of a directory content, by recursion on the content: what the
walker does between the moment the entries of `F` are pushed (with `dir` field
`parent`) and the moment the last of them is popped.  The entries are taken last
listed first. -/
def walkF {σ : Type} (walkFn : WalkFunc σ) (parent : String) : Forest → Acc σ → Acc σ
  | .nil, a => a
  | .file n r, a =>
    let c := (walkF walkFn parent r a).call walkFn (Join parent n) (some ⟨false⟩) none
    match c.2 with
    | some e => { c.1 with haderror := some e }
    | none => c.1
  | .bad n err r, a =>
    (walkF walkFn parent r a).report walkFn (Join parent n) none err
  | .nochdir n err r, a =>
    let c := (walkF walkFn parent r a).call walkFn (Join parent n) (some ⟨true⟩) none
    match c.2 with
    | some e => if e = GoError.SkipDir then c.1 else { c.1 with haderror := some e }
    | none =>
      (c.1.log (Event.chdir (Join parent n) false)).report walkFn (Join parent n)
        (some ⟨true⟩) err
  | .noopen n err r, a =>
    let c := (walkF walkFn parent r a).call walkFn (Join parent n) (some ⟨true⟩) none
    match c.2 with
    | some e => if e = GoError.SkipDir then c.1 else { c.1 with haderror := some e }
    | none =>
      ((c.1.log (Event.chdir (Join parent n) true)).report walkFn (Join parent n)
        (some ⟨true⟩) err).log (Event.dotdot (Join parent n) true)
  | .dir n k r, a =>
    let c := (walkF walkFn parent r a).call walkFn (Join parent n) (some ⟨true⟩) none
    match c.2 with
    | some e => if e = GoError.SkipDir then c.1 else { c.1 with haderror := some e }
    | none =>
      (walkF walkFn (Join parent n) k (c.1.log (Event.chdir (Join parent n) true))).log
        (Event.dotdot (Join parent n) true)
  | .badlist n err k r, a =>
    let c := (walkF walkFn parent r a).call walkFn (Join parent n) (some ⟨true⟩) none
    match c.2 with
    | some e => if e = GoError.SkipDir then c.1 else { c.1 with haderror := some e }
    | none =>
      (walkF walkFn (Join parent n) k
        ((c.1.log (Event.chdir (Join parent n) true)).report walkFn (Join parent n)
          (some ⟨true⟩) err)).log (Event.dotdot (Join parent n) true)

/-- The pre-order depth-first listing of a directory content in which the
entries of each directory are taken last listed first: a directory's path comes
before the paths below it, and all of an entry's subtree comes before the entry
listed before it. -/
def visitOrder (parent : String) : Forest → List String
  | .nil => []
  | .file n r => visitOrder parent r ++ [Join parent n]
  | .bad n _ r => visitOrder parent r ++ [Join parent n]
  | .nochdir n _ r => visitOrder parent r ++ [Join parent n]
  | .noopen n _ r => visitOrder parent r ++ [Join parent n]
  | .dir n k r => visitOrder parent r ++ Join parent n :: visitOrder (Join parent n) k
  | .badlist n _ k r => visitOrder parent r ++ Join parent n :: visitOrder (Join parent n) k

/-- The stack elements pushed for the entries of a directory whose logical path
is `parent`, top of the stack first. -/
def fresh (parent : String) (names : List String) : List queue :=
  (names.map (fun n => ({ dir := parent, name := n, seen := false, cd := false } : queue))).reverse

/-! ## An executable file system -/

/-- One file or directory of the executable file system, by absolute path
(list of components; the root directory is `[]`), with what the system calls
answer for it: the error of `lstat`, of `chdir` into it, of opening it, the
names and the error `Readdirnames` returns for it, and the error of
`chdir("..")` issued inside it. -/
structure Inode where
  path : List String
  IsDir : Bool
  names : List String
  lstatErr : Option Errno
  chdirErr : Option Errno
  openErr : Option Errno
  listErr : Option Errno
  dotdotErr : Option Errno
  deriving DecidableEq, Repr

/-- A directory on which every call succeeds. -/
def mkdir (path : List String) (names : List String) : Inode :=
  { path := path, IsDir := true, names := names, lstatErr := none, chdirErr := none,
    openErr := none, listErr := none, dotdotErr := none }

/-- A regular file. -/
def mkfile (path : List String) : Inode :=
  { path := path, IsDir := false, names := [], lstatErr := none, chdirErr := none,
    openErr := none, listErr := none, dotdotErr := none }

/-- The process state of the executable model: the working directory and the
table of open directory descriptors. -/
structure World where
  cwd : List String
  fds : List (Fd × List String)
  deriving DecidableEq, Repr

/-- The inode at an absolute path. -/
def inodeAt (fs : List Inode) (p : List String) : Option Inode :=
  fs.find? (fun i => i.path = p)

/-- Path resolution, one component at a time, from directory `cur`. -/
def walkComps (fs : List Inode) : List String → List String → Except Errno (List String)
  | cur, [] => .ok cur
  | cur, c :: cs =>
    if c = "" ∨ c = "." then walkComps fs cur cs
    else if c = ".." then walkComps fs cur.dropLast cs
    else
      match inodeAt fs cur with
      | none => .error ENOENT
      | some i => if i.IsDir then walkComps fs (cur ++ [c]) cs else .error ENOTDIR

/-- The absolute path a path name denotes in working directory `cwd`. -/
def resolve (fs : List Inode) (cwd : List String) (path : String) :
    Except Errno (List String) :=
  if path = "" then .error ENOENT
  else
    walkComps fs (if isRooted path.data then [] else cwd)
      ((splitSlash path.data).map String.mk)

/-- The lowest descriptor number from 3 on that is not in use. -/
def freshFd (fds : List (Fd × List String)) : Fd :=
  match ((List.range (fds.length + 1)).map (· + 3)).find? (fun n => (fds.lookup n).isNone) with
  | some n => n
  | none => fds.length + 3

/-- The system calls over the executable file system `fs`. -/
def tableOS (fs : List Inode) : OS World where
  Lstat w p :=
    match resolve fs w.cwd p with
    | .error e => .error e
    | .ok q =>
      match inodeAt fs q with
      | none => .error ENOENT
      | some i =>
        match i.lstatErr with
        | some e => .error e
        | none => .ok { IsDir := i.IsDir }
  Chdir w p :=
    match (if p = ".." then (inodeAt fs w.cwd).bind (·.dotdotErr) else none) with
    | some e => .error e
    | none =>
      match resolve fs w.cwd p with
      | .error e => .error e
      | .ok q =>
        match inodeAt fs q with
        | none => .error ENOENT
        | some i =>
          if i.IsDir then
            match i.chdirErr with
            | some e => .error e
            | none => .ok { w with cwd := q }
          else .error ENOTDIR
  Getwd w := (String.mk ('/' :: joinSlash (w.cwd.map String.data)), none)
  Open w p :=
    match resolve fs w.cwd p with
    | .error e => .error e
    | .ok q =>
      match inodeAt fs q with
      | none => .error ENOENT
      | some i =>
        match i.openErr with
        | some e => .error e
        | none => .ok (freshFd w.fds, { w with fds := (freshFd w.fds, q) :: w.fds })
  Readdirnames w fd :=
    match w.fds.lookup fd with
    | none => ([], some EBADF, w)
    | some q =>
      match inodeAt fs q with
      | none => ([], some ENOENT, w)
      | some i => (i.names, i.listErr, w)
  Close w fd := { w with fds := w.fds.filter (fun e => e.1 ≠ fd) }
  Fchdir w fd :=
    match w.fds.lookup fd with
    | none => .error EBADF
    | some q => .ok { w with cwd := q }
  Fcntl w _ := w

/-! ## Readings of a trace -/

/-- The paths passed to the callback, in order. -/
def calledPaths : List Event → List String
  | [] => []
  | Event.call p _ _ _ :: es => p :: calledPaths es
  | _ :: es => calledPaths es

/-- The value of `haderror` after the calls of a trace, starting from `h`: a
call that reports an error (`err` is not nil) stores what the callback returns,
nil included; a call after a successful `lstat` stores a non-nil return unless
it is `SkipDir` for a directory, and leaves `haderror` alone when the callback
returns nil. -/
def accumulate : Option GoError → List Event → Option GoError
  | h, [] => h
  | h, Event.call _ info err ret :: es =>
    match err with
    | some _ => accumulate ret es
    | none =>
      match ret with
      | none => accumulate h es
      | some e =>
        if (match info with
            | some i => i.IsDir
            | none => false) && e = GoError.SkipDir then accumulate h es
        else accumulate (some e) es
  | h, Event.chdir _ _ :: es => accumulate h es
  | h, Event.dotdot _ _ :: es => accumulate h es

/-- Is the return of this call a `SkipDir` that the walker suppresses: returned
for a directory by the call that follows its successful `lstat`? -/
def suppressed (info : Option FileInfo) (err ret : Option GoError) : Bool :=
  err = none && ret = some GoError.SkipDir &&
    (match info with
     | some i => i.IsDir
     | none => false)

/-- The value returned by the last call of the callback whose return was not a
suppressed `SkipDir`; `h` if there is no such call.  This is the reading of
"last accumulated error" in which every return, nil included, replaces the
accumulated error. -/
def lastReturn : Option GoError → List Event → Option GoError
  | h, [] => h
  | h, Event.call _ info err ret :: es =>
    if suppressed info err ret then lastReturn h es else lastReturn ret es
  | h, Event.chdir _ _ :: es => lastReturn h es
  | h, Event.dotdot _ _ :: es => lastReturn h es

/-- Did a `chdir("..")` fail in this trace? -/
def aborted : List Event → Bool
  | [] => false
  | Event.dotdot _ false :: _ => true
  | _ :: es => aborted es

/-- The logical paths of the stack elements whose `cd` flag is set, top first. -/
def cdPaths : List queue → List String
  | [] => []
  | q :: qs => if q.cd then Join q.dir q.name :: cdPaths qs else cdPaths qs

/-- The successful `chdir`s of a trace that no later `chdir("..")` has undone,
innermost first, starting from the list `stk`; `none` if some `chdir("..")` was
not issued by the element whose `chdir` is the innermost one not yet undone.  A
failed `chdir("..")` undoes nothing. -/
def unmatched : List String → List Event → Option (List String)
  | stk, [] => some stk
  | stk, Event.chdir p true :: es => unmatched (p :: stk) es
  | stk, Event.chdir _ false :: es => unmatched stk es
  | stk, Event.call _ _ _ _ :: es => unmatched stk es
  | [], Event.dotdot _ _ :: _ => none
  | top :: stk, Event.dotdot p ok :: es =>
    if p = top then unmatched (if ok then stk else top :: stk) es else none

/-- The state an iteration ends in. -/
def Outcome.state {W σ : Type} : Outcome W σ → State W σ
  | .cont st => st
  | .ret _ st => st

/-- The state after `n` iterations of the loop, if it has not returned. -/
def stateAfter {W σ : Type} (os : OS W) (walkFn : WalkFunc σ) :
    Nat → State W σ → Option (State W σ)
  | 0, st => some st
  | n + 1, st =>
    match walkiterStep os walkFn st with
    | .cont st1 => stateAfter os walkFn n st1
    | .ret _ _ => none

/-- The content `F` in which every directory for which the callback returns
`SkipDir` (in the call that follows its `lstat`) and whose path is selected by
`sel` has been emptied.  `parent` and `a` are the path of the directory holding
`F` and the accumulator with which the walk of `F` starts. -/
def emptySkipped {σ : Type} (sel : String → Bool) (walkFn : WalkFunc σ) (parent : String) :
    Forest → Acc σ → Forest
  | .nil, _ => .nil
  | .file n r, a => .file n (emptySkipped sel walkFn parent r a)
  | .bad n e r, a => .bad n e (emptySkipped sel walkFn parent r a)
  | .nochdir n e r, a => .nochdir n e (emptySkipped sel walkFn parent r a)
  | .noopen n e r, a => .noopen n e (emptySkipped sel walkFn parent r a)
  | .dir n k r, a =>
    let c := (walkF walkFn parent r a).call walkFn (Join parent n) (some ⟨true⟩) none
    match c.2 with
    | some e =>
      if e = GoError.SkipDir ∧ sel (Join parent n) = true
      then .dir n .nil (emptySkipped sel walkFn parent r a)
      else .dir n k (emptySkipped sel walkFn parent r a)
    | none =>
      .dir n (emptySkipped sel walkFn (Join parent n) k
          (c.1.log (Event.chdir (Join parent n) true)))
        (emptySkipped sel walkFn parent r a)
  | .badlist n err k r, a =>
    let c := (walkF walkFn parent r a).call walkFn (Join parent n) (some ⟨true⟩) none
    match c.2 with
    | some e =>
      if e = GoError.SkipDir ∧ sel (Join parent n) = true
      then .badlist n err .nil (emptySkipped sel walkFn parent r a)
      else .badlist n err k (emptySkipped sel walkFn parent r a)
    | none =>
      .badlist n err (emptySkipped sel walkFn (Join parent n) k
          ((c.1.log (Event.chdir (Join parent n) true)).report walkFn (Join parent n)
            (some ⟨true⟩) err))
        (emptySkipped sel walkFn parent r a)

/-- Does this event replace the value of `haderror`?  A call that reports an
error does, whatever the callback returns; a call after a successful `lstat`
does when the callback returns a non-nil error that is not `SkipDir` for a
directory. -/
def overwrites : Event → Bool
  | Event.call _ info err ret =>
    match err with
    | some _ => true
    | none =>
      match ret with
      | none => false
      | some e =>
        !((match info with
           | some i => i.IsDir
           | none => false) && e = GoError.SkipDir)
  | Event.chdir _ _ => false
  | Event.dotdot _ _ => false

/-- Since the trace was `tr0`, every unvisited element of `elems` has had its
logical path passed to the callback or is still on the stack. -/
def Pending {W σ : Type} (elems : List queue) (tr0 : List Event) (st : State W σ) : Prop :=
  ∃ t, st.trace = tr0 ++ t ∧
    ∀ x ∈ elems, x.seen = false → Join x.dir x.name ∈ calledPaths t ∨ x ∈ st.s

/-- The balance of a state: unvisited elements do not have the `cd` flag, and
the `chdir`s of the trace not yet undone are those of the elements on the stack
with the `cd` flag, innermost first. -/
def Balanced {W σ : Type} (st : State W σ) : Prop :=
  (∀ q ∈ st.s, q.seen = false → q.cd = false) ∧ unmatched [] st.trace = some (cdPaths st.s)

/-- Since the trace was `tr0`, every name of `names` has been passed to the
callback as `Join path name`, or the element pushed for it is still on the stack
above the element `D`, below which the stack is `next`. -/
def Served {W σ : Type} (path : String) (names : List String) (D : queue) (next : List queue)
    (tr0 : List Event) (st : State W σ) : Prop :=
  ∃ t, st.trace = tr0 ++ t ∧ ∀ name ∈ names, Join path name ∈ calledPaths t ∨
    ∃ pre, st.s = pre ++ D :: next ∧
      ({ dir := path, name := name, seen := false, cd := false } : queue) ∈ pre

/-! ## Concrete inputs -/

/-- The element `Walk` seeds the stack with. -/
def seed (root : String) : queue := { dir := "", name := root, seen := false, cd := false }

/-- An inode with every answer given. -/
def nodeAt (path : List String) (IsDir : Bool) (names : List String)
    (lstatErr chdirErr openErr listErr dotdotErr : Option Errno) : Inode :=
  { path := path, IsDir := IsDir, names := names, lstatErr := lstatErr, chdirErr := chdirErr,
    openErr := openErr, listErr := listErr, dotdotErr := dotdotErr }

/-- The tree of the scenario: `/tmp/a` holds the directory `b`, which holds the
file `c`, and the file `d`; `/home` is another directory. -/
def fsA : List Inode :=
  [mkdir [] ["tmp", "home"], mkdir ["home"] [], mkdir ["tmp"] ["a"],
   mkdir ["tmp", "a"] ["d", "b"], mkdir ["tmp", "a", "b"] ["c"],
   mkfile ["tmp", "a", "b", "c"], mkfile ["tmp", "a", "d"]]

/-- The content of `/tmp` in `fsA`. -/
def treeA : Forest := .dir "a" (.file "d" (.dir "b" (.file "c" .nil) .nil)) .nil

/-- The tree `fsA` with, besides, a file at `/tmp/a/a/b`. -/
def fsShadow : List Inode :=
  fsA ++ [mkdir ["tmp", "a", "a"] ["b"], mkfile ["tmp", "a", "a", "b"]]

/-- In `fsUp`, `/tmp/a` is a directory out of which `chdir("..")` fails. -/
def fsUp : List Inode :=
  [mkdir [] ["tmp"], mkdir ["tmp"] ["a"],
   nodeAt ["tmp", "a"] true ["x"] none none none none (some EACCES), mkfile ["tmp", "a", "x"]]

/-- The callback that always returns nil. -/
def nilFn : WalkFunc Unit := fun _ _ _ _ => ((), none)

/-- The process in `/tmp` with no descriptor open. -/
def wTmp : World := { cwd := ["tmp"], fds := [] }

/-- The process in `/home` with no descriptor open. -/
def wHome : World := { cwd := ["home"], fds := [] }

/-- In `fsXY`, `/tmp/a` holds the files `x` and `y`, listed in this order. -/
def fsXY : List Inode :=
  [mkdir [] ["tmp"], mkdir ["tmp"] ["a"], mkdir ["tmp", "a"] ["x", "y"],
   mkfile ["tmp", "a", "x"], mkfile ["tmp", "a", "y"]]

/-- The content of `/tmp` in `fsXY`. -/
def treeXY : Forest := .dir "a" (.file "x" (.file "y" .nil)) .nil

/-- The callback that returns an error for the path `a/y` and nil otherwise. -/
def failAtY : WalkFunc Unit := fun _ p _ _ =>
  ((), if p = "a/y" then some (.user "boom") else none)

/-- The callback that returns `SkipDir` for the path `a/b` and nil otherwise. -/
def skipAtB : WalkFunc Unit := fun _ p _ _ =>
  ((), if p = "a/b" then some .SkipDir else none)

/-- The callback that returns `SkipDir` for the path `a/y` and nil otherwise. -/
def skipAtY : WalkFunc Unit := fun _ p _ _ =>
  ((), if p = "a/y" then some .SkipDir else none)

/-- The directory `b` holding the file `c`, as `/tmp/a` presents it in `fsA`,
`fsShadow` and `fsNested`. -/
def treeB : Forest := .dir "b" (.file "c" .nil) .nil

/-- In `fsNested`, `/tmp/a` holds the file `d`, the directory `b`, which holds
the file `c`, and the directory `a`, which holds the file `b`.  No system call
fails on any of them. -/
def fsNested : List Inode :=
  [mkdir [] ["tmp", "home"], mkdir ["home"] [], mkdir ["tmp"] ["a"],
   mkdir ["tmp", "a"] ["d", "b", "a"], mkdir ["tmp", "a", "b"] ["c"],
   mkfile ["tmp", "a", "b", "c"], mkfile ["tmp", "a", "d"],
   mkdir ["tmp", "a", "a"] ["b"], mkfile ["tmp", "a", "a", "b"]]

/-- The error number of an input/output error. -/
def EIO : Errno := 5

/-- In `fsCut`, the listing of `/tmp/a` returns the names `x` and `y` together
with an error. -/
def fsCut : List Inode :=
  [mkdir [] ["tmp"], mkdir ["tmp"] ["a"],
   nodeAt ["tmp", "a"] true ["x", "y"] none none none (some EIO) none,
   mkfile ["tmp", "a", "x"], mkfile ["tmp", "a", "y"]]

/-- The same tree with `/tmp/a` childless. -/
def fsChildless : List Inode :=
  [mkdir [] ["tmp"], mkdir ["tmp"] ["a"], mkdir ["tmp", "a"] []]

/-- In `fsBad`, `lstat` of `/tmp/a` fails. -/
def fsBad : List Inode :=
  [mkdir [] ["tmp"], mkdir ["tmp"] ["a"],
   nodeAt ["tmp", "a"] true [] (some EACCES) none none none none]

end WalkGo

namespace WalkGo

variable {W σ : Type}

/-! ## `Clean` is idempotent -/

theorem splitSlash_ne_nil (d : List Char) : splitSlash d ≠ [] := by
  induction d with
  | nil => simp [splitSlash]
  | cons c cs ih =>
    simp only [splitSlash]
    split
    · simp
    · split <;> simp

theorem splitSlash_noslash (d : List Char) : ∀ c ∈ splitSlash d, '/' ∉ c := by
  induction d with
  | nil => simp [splitSlash]
  | cons c cs ih =>
    simp only [splitSlash]
    split
    · intro x hx
      simp only [List.mem_cons] at hx
      rcases hx with rfl | hx
      · simp
      · exact ih x hx
    · rename_i hc
      cases hs : splitSlash cs with
      | nil => exact absurd hs (splitSlash_ne_nil cs)
      | cons x xs =>
        rw [hs] at ih
        intro y hy
        simp only [List.mem_cons] at hy
        rcases hy with rfl | hy
        · intro hmem
          simp only [List.mem_cons] at hmem
          rcases hmem with h | h
          · exact hc h.symm
          · exact ih x (by simp) h
        · exact ih y (by simp [hy])

theorem splitSlash_single (c : List Char) (h : '/' ∉ c) : splitSlash c = [c] := by
  induction c with
  | nil => simp [splitSlash]
  | cons x xs ih =>
    simp only [List.mem_cons, not_or] at h
    have hx : x ≠ '/' := fun e => h.1 e.symm
    simp [splitSlash, hx, ih h.2]

theorem splitSlash_append (c rest : List Char) (h : '/' ∉ c) :
    splitSlash (c ++ '/' :: rest) = c :: splitSlash rest := by
  induction c with
  | nil => simp [splitSlash]
  | cons x xs ih =>
    simp only [List.mem_cons, not_or] at h
    have hx : x ≠ '/' := fun e => h.1 e.symm
    simp [splitSlash, hx, ih h.2]

theorem splitSlash_joinSlash (comps : List (List Char)) (hne : comps ≠ [])
    (h : ∀ c ∈ comps, '/' ∉ c) : splitSlash (joinSlash comps) = comps := by
  induction comps with
  | nil => exact absurd rfl hne
  | cons c cs ih =>
    cases cs with
    | nil => simpa [joinSlash] using splitSlash_single c (h c (by simp))
    | cons c2 cs2 =>
      simp only [joinSlash]
      rw [splitSlash_append c _ (h c (by simp)), ih (by simp) (fun x hx => h x (by simp [hx]))]

theorem cleanComps_NF (rooted : Bool) (xs : List (List Char)) :
    ∀ out, NFr rooted out → (∀ c ∈ xs, '/' ∉ c) →
      NFr rooted (cleanComps rooted out xs).reverse := by
  induction xs with
  | nil => intro out h _; simpa [cleanComps] using h
  | cons c cs ih =>
    intro out h hs
    have hcs : ∀ c ∈ cs, '/' ∉ c := fun x hx => hs x (by simp [hx])
    simp only [cleanComps]
    split
    · exact ih out h hcs
    · rename_i h1
      split
      · rename_i h2
        cases out with
        | nil =>
          simp only
          split
          · exact ih [] h hcs
          · rename_i hr
            refine ih [c] ⟨⟨?_, ?_, hs c (by simp)⟩, trivial, fun _ => ⟨by simpa using hr, by simp⟩⟩ hcs
            · subst h2; simp
            · subst h2; simp
        | cons top out1 =>
          simp only
          obtain ⟨hg, hn, hd⟩ := h
          split
          · rename_i ht
            obtain ⟨hr, hall⟩ := hd ht
            refine ih (c :: top :: out1) ⟨⟨?_, ?_, hs c (by simp)⟩, ⟨hg, hn, hd⟩, fun _ => ⟨hr, ?_⟩⟩ hcs
            · subst h2; simp
            · subst h2; simp
            · intro x hx
              simp only [List.mem_cons] at hx
              rcases hx with rfl | hx
              · exact ht
              · exact hall x hx
          · exact ih out1 hn hcs
      · rename_i h2
        simp only [not_or] at h1
        exact ih (c :: out) ⟨⟨h1.1, h1.2, hs c (by simp)⟩, h, fun e => absurd e h2⟩ hcs

theorem NFr_append_right (rooted : Bool) (xs out : List (List Char)) :
    NFr rooted (xs ++ out) → NFr rooted out := by
  induction xs with
  | nil => simp
  | cons c cs ih => intro h; exact ih h.2.1

theorem cleanComps_fixed (rooted : Bool) (xs : List (List Char)) :
    ∀ out, NFr rooted (xs.reverse ++ out) → cleanComps rooted out xs = out.reverse ++ xs := by
  induction xs with
  | nil => intro out _; simp [cleanComps]
  | cons c cs ih =>
    intro out h
    have h1 : NFr rooted (cs.reverse ++ (c :: out)) := by simpa using h
    have h2 : NFr rooted (c :: out) := NFr_append_right rooted cs.reverse (c :: out) h1
    obtain ⟨hg, hn, hd⟩ := h2
    have hrec := ih (c :: out) h1
    simp only [cleanComps]
    have hg1 : ¬ (c = [] ∨ c = ['.']) := by
      simp only [not_or]; exact ⟨hg.1, hg.2.1⟩
    rw [if_neg hg1]
    split
    · rename_i hdd
      obtain ⟨hr, hall⟩ := hd hdd
      cases out with
      | nil => subst hr; simp [hrec]
      | cons top out1 =>
        simp only
        rw [if_pos (hall top (by simp)), hrec]
        simp
    · rw [hrec]; simp

theorem joinSlash_head (comps : List (List Char)) (hne : comps ≠ [])
    (h : ∀ c ∈ comps, Good c) : (joinSlash comps).head? ≠ some '/' ∧ joinSlash comps ≠ [] := by
  cases comps with
  | nil => exact absurd rfl hne
  | cons c cs =>
    obtain ⟨h1, _, h3⟩ := h c (by simp)
    cases c with
    | nil => exact absurd rfl h1
    | cons x xs =>
      have hx : x ≠ '/' := fun e => h3 (by simp [e])
      cases cs with
      | nil => simp [joinSlash, hx]
      | cons c2 cs2 => simp [joinSlash, hx]

theorem NFr_good (rooted : Bool) (out : List (List Char)) (h : NFr rooted out) :
    ∀ c ∈ out, Good c := by
  induction out with
  | nil => simp
  | cons c cs ih =>
    intro x hx
    simp only [List.mem_cons] at hx
    rcases hx with rfl | hx
    · exact h.1
    · exact ih h.2.1 x hx

theorem cleanData_idem (d : List Char) : cleanData (cleanData d) = cleanData d := by
  have hnf := cleanComps_NF (isRooted d) (splitSlash d) [] trivial (splitSlash_noslash d)
  generalize hcomps : cleanComps (isRooted d) [] (splitSlash d) = comps at hnf
  have hgood : ∀ c ∈ comps, Good c := fun c hc =>
    NFr_good _ comps.reverse hnf c (by simpa using hc)
  have hfix : cleanComps (isRooted d) [] comps = comps := by
    simpa using cleanComps_fixed _ comps [] (by simpa using hnf)
  cases hroot : isRooted d with
  | true =>
    rw [hroot] at hfix hcomps
    have e1 : cleanData d = '/' :: joinSlash comps := by
      simp [cleanData, hroot, hcomps]
    rw [e1]
    by_cases hc : comps = []
    · subst hc
      simp [cleanData, joinSlash, splitSlash, cleanComps, isRooted]
    · have hs : splitSlash ('/' :: joinSlash comps) = [] :: comps := by
        simp [splitSlash, splitSlash_joinSlash comps hc (fun c h => (hgood c h).2.2)]
      have h2 : cleanComps true [] ([] :: comps) = comps := by
        simp [cleanComps, hfix]
      simp [cleanData, hs, h2, isRooted]
  | false =>
    rw [hroot] at hfix hcomps
    by_cases hc : comps = []
    · subst hc
      have e1 : cleanData d = ['.'] := by
        simp [cleanData, hroot, hcomps, joinSlash]
      rw [e1]
      simp [cleanData, joinSlash, splitSlash, cleanComps, isRooted]
    · obtain ⟨hh, hne⟩ := joinSlash_head comps hc hgood
      have e1 : cleanData d = joinSlash comps := by
        simp [cleanData, hroot, hcomps, hne]
      rw [e1]
      have hs : splitSlash (joinSlash comps) = comps :=
        splitSlash_joinSlash comps hc (fun c h => (hgood c h).2.2)
      have hr : isRooted (joinSlash comps) = false := by
        cases hj : joinSlash comps with
        | nil => rfl
        | cons x xs =>
          rw [hj] at hh
          simpa [isRooted] using hh
      simp [cleanData, hr, hs, hfix, hne]

theorem Clean_idem (path : String) : Clean (Clean path) = Clean path := by
  simp [Clean, cleanData_idem]

theorem cleanData_ne_nil (d : List Char) : cleanData d ≠ [] := by
  unfold cleanData
  simp only
  split
  · simp
  · split
    · simp
    · assumption

theorem Clean_ne_empty (path : String) : Clean path ≠ "" := by
  intro h
  have h1 := congrArg String.data h
  simp only [Clean] at h1
  exact cleanData_ne_nil _ h1

/-- The path `walkiter` reports for the seed element is the cleaned root. -/
theorem Join_empty_Clean (root : String) : Join "" (Clean root) = Clean root := by
  unfold Join
  simp [Clean_ne_empty, Clean_idem]

/-! ## Projections of the accumulator -/

@[simp] theorem Acc.call_fst_haderror (fn : WalkFunc σ) (a : Acc σ) (p : String)
    (i : Option FileInfo) (e : Option GoError) : (a.call fn p i e).1.haderror = a.haderror := rfl

@[simp] theorem Acc.call_fst_trace (fn : WalkFunc σ) (a : Acc σ) (p : String)
    (i : Option FileInfo) (e : Option GoError) :
    (a.call fn p i e).1.trace = a.trace ++ [Event.call p i e (a.call fn p i e).2] := rfl

theorem Acc.call_snd (fn : WalkFunc σ) (a : Acc σ) (p : String)
    (i : Option FileInfo) (e : Option GoError) : (a.call fn p i e).2 = (fn a.cb p i e).2 := rfl

@[simp] theorem Acc.log_haderror (a : Acc σ) (e : Event) : (a.log e).haderror = a.haderror := rfl

@[simp] theorem Acc.log_trace (a : Acc σ) (e : Event) : (a.log e).trace = a.trace ++ [e] := rfl

@[simp] theorem Acc.log_cb (a : Acc σ) (e : Event) : (a.log e).cb = a.cb := rfl

@[simp] theorem Acc.report_haderror (fn : WalkFunc σ) (a : Acc σ) (p : String)
    (i : Option FileInfo) (e : Errno) :
    (a.report fn p i e).haderror = (a.call fn p i (some (.sys e))).2 := rfl

@[simp] theorem Acc.report_trace (fn : WalkFunc σ) (a : Acc σ) (p : String)
    (i : Option FileInfo) (e : Errno) :
    (a.report fn p i e).trace
      = a.trace ++ [Event.call p i (some (.sys e)) (a.call fn p i (some (.sys e))).2] := rfl

/-! ## Single iterations -/

theorem pushNames_eq (p : String) (names : List String) (s : List queue) :
    pushNames p names s = fresh p names ++ s := by
  unfold pushNames fresh
  induction names generalizing s with
  | nil => simp
  | cons n ns ih => simp [List.foldl_cons, ih]

theorem fresh_cons (p n : String) (ns : List String) :
    fresh p (n :: ns) = fresh p ns ++ [{ dir := p, name := n, seen := false, cd := false }] := by
  simp [fresh]

theorem walkiterFrom_cont (os : OS W) (fn : WalkFunc σ) (fuel : Nat) {st st1 : State W σ}
    (h : walkiterStep os fn st = .cont st1) :
    walkiterFrom os fn (fuel + 1) st = walkiterFrom os fn fuel st1 := by
  simp [walkiterFrom, h]

theorem walkiterFrom_ret (os : OS W) (fn : WalkFunc σ) (fuel : Nat) {st st1 : State W σ}
    {r : Option GoError} (h : walkiterStep os fn st = .ret r st1) :
    walkiterFrom os fn (fuel + 1) st = some (r, st1) := by
  simp [walkiterFrom, h]

/-- The loop returns `haderror` when the stack is empty. -/
theorem step_empty (os : OS W) (fn : WalkFunc σ) (w : W) (a : Acc σ) :
    walkiterStep os fn (mkState [] w a) = .ret a.haderror (mkState [] w a) := by
  simp [walkiterStep, mkState]

/-- Popping a visited element that did not change directory. -/
theorem step_pop (os : OS W) (fn : WalkFunc σ) (d n : String) (tail : List queue) (w : W)
    (a : Acc σ) :
    walkiterStep os fn (mkState ({ dir := d, name := n, seen := true, cd := false } :: tail) w a)
      = .cont (mkState tail w a) := by
  simp [walkiterStep, mkState]

/-- Popping a visited element that changed directory, when `chdir("..")` succeeds. -/
theorem step_ascend (os : OS W) (fn : WalkFunc σ) (d n : String) (tail : List queue)
    (w w1 : W) (a : Acc σ) (h : os.Chdir w1 ".." = .ok w) :
    walkiterStep os fn (mkState ({ dir := d, name := n, seen := true, cd := true } :: tail) w1 a)
      = .cont (mkState tail w (a.log (Event.dotdot (Join d n) true))) := by
  simp [walkiterStep, mkState, h, Acc.log]

/-- First visit of an entry whose `lstat` fails. -/
theorem step_bad (os : OS W) (fn : WalkFunc σ) (d n : String) (tail : List queue) (w : W)
    (a : Acc σ) (e : Errno) (h : os.Lstat w n = .error e) :
    walkiterStep os fn (mkState ({ dir := d, name := n, seen := false, cd := false } :: tail) w a)
      = .cont (mkState ({ dir := d, name := n, seen := true, cd := false } :: tail) w
          (a.report fn (Join d n) none e)) := by
  simp [walkiterStep, mkState, h, invoke, Acc.call, Acc.report]

/-- First visit of a non-directory. -/
theorem step_file (os : OS W) (fn : WalkFunc σ) (d n : String) (tail : List queue) (w : W)
    (a : Acc σ) (h : os.Lstat w n = .ok ⟨false⟩) :
    walkiterStep os fn (mkState ({ dir := d, name := n, seen := false, cd := false } :: tail) w a)
      = .cont (mkState ({ dir := d, name := n, seen := true, cd := false } :: tail) w
          (match (a.call fn (Join d n) (some ⟨false⟩) none).2 with
           | some e => { (a.call fn (Join d n) (some ⟨false⟩) none).1 with haderror := some e }
           | none => (a.call fn (Join d n) (some ⟨false⟩) none).1)) := by
  simp only [walkiterStep, mkState, h, invoke, Acc.call]
  cases hr : (fn a.cb (Join d n) (some ⟨false⟩) none).2 <;> simp [hr]

/-- First visit of a directory for which the callback returns an error. -/
theorem step_dir_err (os : OS W) (fn : WalkFunc σ) (d n : String) (tail : List queue) (w : W)
    (a : Acc σ) (e : GoError) (h : os.Lstat w n = .ok ⟨true⟩)
    (hc : (a.call fn (Join d n) (some ⟨true⟩) none).2 = some e) :
    walkiterStep os fn (mkState ({ dir := d, name := n, seen := false, cd := false } :: tail) w a)
      = .cont (mkState ({ dir := d, name := n, seen := true, cd := false } :: tail) w
          (if e = GoError.SkipDir then (a.call fn (Join d n) (some ⟨true⟩) none).1
           else { (a.call fn (Join d n) (some ⟨true⟩) none).1 with haderror := some e })) := by
  simp only [Acc.call] at hc
  simp only [walkiterStep, mkState, h, invoke, Acc.call, hc]
  by_cases he : e = GoError.SkipDir <;> simp [he]

/-- First visit of a directory that cannot be entered. -/
theorem step_nochdir (os : OS W) (fn : WalkFunc σ) (d n : String) (tail : List queue) (w : W)
    (a : Acc σ) (e : Errno) (h : os.Lstat w n = .ok ⟨true⟩)
    (hc : (a.call fn (Join d n) (some ⟨true⟩) none).2 = none)
    (hcd : os.Chdir w n = .error e) :
    walkiterStep os fn (mkState ({ dir := d, name := n, seen := false, cd := false } :: tail) w a)
      = .cont (mkState ({ dir := d, name := n, seen := true, cd := false } :: tail) w
          (((a.call fn (Join d n) (some ⟨true⟩) none).1.log
            (Event.chdir (Join d n) false)).report fn (Join d n) (some ⟨true⟩) e)) := by
  simp only [Acc.call] at hc
  simp [walkiterStep, mkState, h, invoke, Acc.call, hc, hcd, Acc.log, Acc.report]

/-- First visit of a directory that can be entered but not opened. -/
theorem step_noopen (os : OS W) (fn : WalkFunc σ) (d n : String) (tail : List queue) (w w1 : W)
    (a : Acc σ) (e : Errno) (h : os.Lstat w n = .ok ⟨true⟩)
    (hc : (a.call fn (Join d n) (some ⟨true⟩) none).2 = none)
    (hcd : os.Chdir w n = .ok w1) (hop : os.Open w1 "." = .error e) :
    walkiterStep os fn (mkState ({ dir := d, name := n, seen := false, cd := false } :: tail) w a)
      = .cont (mkState ({ dir := d, name := n, seen := true, cd := true } :: tail) w1
          (((a.call fn (Join d n) (some ⟨true⟩) none).1.log
            (Event.chdir (Join d n) true)).report fn (Join d n) (some ⟨true⟩) e)) := by
  simp only [Acc.call] at hc
  simp [walkiterStep, mkState, h, invoke, Acc.call, hc, hcd, hop, Acc.log, Acc.report]

/-- First visit of a directory that is entered, opened and listed without error. -/
theorem step_dir (os : OS W) (fn : WalkFunc σ) (d n : String) (tail : List queue) (w w1 w2 : W)
    (a : Acc σ) (fd : Fd) (h : os.Lstat w n = .ok ⟨true⟩)
    (hc : (a.call fn (Join d n) (some ⟨true⟩) none).2 = none)
    (hcd : os.Chdir w n = .ok w1) (hop : os.Open w1 "." = .ok (fd, w2))
    (hl : (os.Readdirnames w2 fd).2.1 = none) :
    walkiterStep os fn (mkState ({ dir := d, name := n, seen := false, cd := false } :: tail) w a)
      = .cont (mkState
          (fresh (Join d n) (os.Readdirnames w2 fd).1 ++
            { dir := d, name := n, seen := true, cd := true } :: tail)
          (os.Close (os.Readdirnames w2 fd).2.2 fd)
          ((a.call fn (Join d n) (some ⟨true⟩) none).1.log (Event.chdir (Join d n) true))) := by
  simp only [Acc.call] at hc
  simp [walkiterStep, mkState, h, invoke, Acc.call, hc, hcd, hop, hl, Acc.log, Acc.report, pushNames_eq]

/-- First visit of a directory whose listing returns names and an error. -/
theorem step_badlist (os : OS W) (fn : WalkFunc σ) (d n : String) (tail : List queue)
    (w w1 w2 : W) (a : Acc σ) (fd : Fd) (e : Errno) (h : os.Lstat w n = .ok ⟨true⟩)
    (hc : (a.call fn (Join d n) (some ⟨true⟩) none).2 = none)
    (hcd : os.Chdir w n = .ok w1) (hop : os.Open w1 "." = .ok (fd, w2))
    (hl : (os.Readdirnames w2 fd).2.1 = some e) :
    walkiterStep os fn (mkState ({ dir := d, name := n, seen := false, cd := false } :: tail) w a)
      = .cont (mkState
          (fresh (Join d n) (os.Readdirnames w2 fd).1 ++
            { dir := d, name := n, seen := true, cd := true } :: tail)
          (os.Close (os.Readdirnames w2 fd).2.2 fd)
          (((a.call fn (Join d n) (some ⟨true⟩) none).1.log
            (Event.chdir (Join d n) true)).report fn (Join d n) (some ⟨true⟩) e)) := by
  simp only [Acc.call] at hc
  simp [walkiterStep, mkState, h, invoke, Acc.call, hc, hcd, hop, hl, Acc.log, Acc.report, pushNames_eq]

/-! ## Case analysis on an iteration -/

/-- Case analysis on one iteration of the loop: a property of the outcome holds
if it holds in each of the eleven branches of the loop body. -/
theorem walkiterStep_cases (os : OS W) (fn : WalkFunc σ) (P : Outcome W σ → Prop)
    (s : List queue) (w : W) (a : Acc σ)
    (hempty : s = [] → P (.ret a.haderror (mkState [] w a)))
    (hpop : ∀ q next, s = q :: next → q.seen = true → q.cd = false →
      P (.cont (mkState next w a)))
    (hup : ∀ q next w1, s = q :: next → q.seen = true → q.cd = true →
      os.Chdir w ".." = .ok w1 →
      P (.cont (mkState next w1 (a.log (Event.dotdot (Join q.dir q.name) true)))))
    (hfail : ∀ q next err, s = q :: next → q.seen = true → q.cd = true →
      os.Chdir w ".." = .error err →
      P (.ret (some (.dotdot (Join q.dir q.name) (os.Getwd w).1 err (os.Getwd w).2))
        (mkState s w (a.log (Event.dotdot (Join q.dir q.name) false)))))
    (hbad : ∀ q next err, s = q :: next → q.seen = false → os.Lstat w q.name = .error err →
      P (.cont (mkState ({ q with seen := true } :: next) w
        (a.report fn (Join q.dir q.name) none err))))
    (hret : ∀ q next info e, s = q :: next → q.seen = false → os.Lstat w q.name = .ok info →
      (a.call fn (Join q.dir q.name) (some info) none).2 = some e →
      P (.cont (mkState ({ q with seen := true } :: next) w
        (if info.IsDir = true ∧ e = GoError.SkipDir
         then (a.call fn (Join q.dir q.name) (some info) none).1
         else { (a.call fn (Join q.dir q.name) (some info) none).1 with haderror := some e }))))
    (hfile : ∀ q next info, s = q :: next → q.seen = false → os.Lstat w q.name = .ok info →
      (a.call fn (Join q.dir q.name) (some info) none).2 = none → info.IsDir = false →
      P (.cont (mkState ({ q with seen := true } :: next) w
        (a.call fn (Join q.dir q.name) (some info) none).1)))
    (hnochdir : ∀ q next info err, s = q :: next → q.seen = false →
      os.Lstat w q.name = .ok info →
      (a.call fn (Join q.dir q.name) (some info) none).2 = none → info.IsDir = true →
      os.Chdir w q.name = .error err →
      P (.cont (mkState ({ q with seen := true } :: next) w
        (((a.call fn (Join q.dir q.name) (some info) none).1.log
          (Event.chdir (Join q.dir q.name) false)).report fn (Join q.dir q.name)
            (some info) err))))
    (hnoopen : ∀ q next info w1 err, s = q :: next → q.seen = false →
      os.Lstat w q.name = .ok info →
      (a.call fn (Join q.dir q.name) (some info) none).2 = none → info.IsDir = true →
      os.Chdir w q.name = .ok w1 → os.Open w1 "." = .error err →
      P (.cont (mkState ({ q with seen := true, cd := true } :: next) w1
        (((a.call fn (Join q.dir q.name) (some info) none).1.log
          (Event.chdir (Join q.dir q.name) true)).report fn (Join q.dir q.name)
            (some info) err))))
    (hlist : ∀ q next info w1 fd w2, s = q :: next → q.seen = false →
      os.Lstat w q.name = .ok info →
      (a.call fn (Join q.dir q.name) (some info) none).2 = none → info.IsDir = true →
      os.Chdir w q.name = .ok w1 → os.Open w1 "." = .ok (fd, w2) →
      (os.Readdirnames w2 fd).2.1 = none →
      P (.cont (mkState
        (fresh (Join q.dir q.name) (os.Readdirnames w2 fd).1 ++
          { q with seen := true, cd := true } :: next)
        (os.Close (os.Readdirnames w2 fd).2.2 fd)
        ((a.call fn (Join q.dir q.name) (some info) none).1.log
          (Event.chdir (Join q.dir q.name) true)))))
    (hbadlist : ∀ q next info w1 fd w2 err, s = q :: next → q.seen = false →
      os.Lstat w q.name = .ok info →
      (a.call fn (Join q.dir q.name) (some info) none).2 = none → info.IsDir = true →
      os.Chdir w q.name = .ok w1 → os.Open w1 "." = .ok (fd, w2) →
      (os.Readdirnames w2 fd).2.1 = some err →
      P (.cont (mkState
        (fresh (Join q.dir q.name) (os.Readdirnames w2 fd).1 ++
          { q with seen := true, cd := true } :: next)
        (os.Close (os.Readdirnames w2 fd).2.2 fd)
        (((a.call fn (Join q.dir q.name) (some info) none).1.log
          (Event.chdir (Join q.dir q.name) true)).report fn (Join q.dir q.name)
            (some info) err)))) :
    P (walkiterStep os fn (mkState s w a)) := by
  cases s with
  | nil => simpa [walkiterStep, mkState] using hempty rfl
  | cons q next =>
    cases hseen : q.seen with
    | true =>
      cases hcd : q.cd with
      | false =>
        have := hpop q next rfl hseen hcd
        simpa [walkiterStep, mkState, hseen, hcd] using this
      | true =>
        cases hch : os.Chdir w ".." with
        | error err =>
          have := hfail q next err rfl hseen hcd hch
          simpa [walkiterStep, mkState, hseen, hcd, hch, Acc.log] using this
        | ok w1 =>
          have := hup q next w1 rfl hseen hcd hch
          simpa [walkiterStep, mkState, hseen, hcd, hch, Acc.log] using this
    | false =>
      cases hl : os.Lstat w q.name with
      | error err =>
        have := hbad q next err rfl hseen hl
        simpa [walkiterStep, mkState, hseen, hl, invoke, Acc.report, Acc.call] using this
      | ok info =>
        cases hc : (a.call fn (Join q.dir q.name) (some info) none).2 with
        | some e =>
          have := hret q next info e rfl hseen hl hc
          simp only [Acc.call] at hc
          by_cases hsk : info.IsDir = true ∧ e = GoError.SkipDir
          · simpa [walkiterStep, mkState, hseen, hl, invoke, Acc.call, hc, hsk] using this
          · rw [if_neg hsk] at this
            simp only [walkiterStep, mkState, hseen, hl, invoke, hc]
            simp only [Bool.and_eq_true, decide_eq_true_eq, hsk]
            simpa [mkState, Acc.call, hc] using this
        | none =>
          cases hd : info.IsDir with
          | false =>
            have := hfile q next info rfl hseen hl hc hd
            simp only [Acc.call] at hc
            simpa [walkiterStep, mkState, hseen, hl, invoke, Acc.call, hc, hd] using this
          | true =>
            cases hch : os.Chdir w q.name with
            | error err =>
              have := hnochdir q next info err rfl hseen hl hc hd hch
              simp only [Acc.call] at hc
              simpa [walkiterStep, mkState, hseen, hl, invoke, Acc.call, hc, hd, hch, Acc.log,
                Acc.report] using this
            | ok w1 =>
              cases hop : os.Open w1 "." with
              | error err =>
                have := hnoopen q next info w1 err rfl hseen hl hc hd hch hop
                simp only [Acc.call] at hc
                simpa [walkiterStep, mkState, hseen, hl, invoke, Acc.call, hc, hd, hch, hop,
                  Acc.log, Acc.report] using this
              | ok x =>
                obtain ⟨fd, w2⟩ := x
                cases hle : (os.Readdirnames w2 fd).2.1 with
                | none =>
                  have := hlist q next info w1 fd w2 rfl hseen hl hc hd hch hop hle
                  simp only [Acc.call] at hc
                  simpa [walkiterStep, mkState, hseen, hl, invoke, Acc.call, hc, hd, hch, hop,
                    hle, Acc.log, Acc.report, pushNames_eq] using this
                | some err =>
                  have := hbadlist q next info w1 fd w2 err rfl hseen hl hc hd hch hop hle
                  simp only [Acc.call] at hc
                  simpa [walkiterStep, mkState, hseen, hl, invoke, Acc.call, hc, hd, hch, hop,
                    hle, Acc.log, Acc.report, pushNames_eq] using this

/-! ## What `realizes` says, entry by entry -/

theorem lstat_isDir (os : OS W) (w : W) (n : String)
    (h : (match os.Lstat w n with
      | .ok i => i.IsDir
      | .error _ => false) = true) : os.Lstat w n = .ok ⟨true⟩ := by
  cases hx : os.Lstat w n with
  | error e => simp [hx] at h
  | ok i => cases i with
    | mk b => simp [hx] at h; simp [h]

theorem lstat_notDir (os : OS W) (w : W) (n : String)
    (h : (match os.Lstat w n with
      | .ok i => !i.IsDir
      | .error _ => false) = true) : os.Lstat w n = .ok ⟨false⟩ := by
  cases hx : os.Lstat w n with
  | error e => simp [hx] at h
  | ok i => cases i with
    | mk b => simp [hx] at h; simp [h]

theorem realizes_file [DecidableEq W] (os : OS W) (w : W) (n : String) (r : Forest)
    (h : realizes os w (.file n r) = true) :
    realizes os w r = true ∧ os.Lstat w n = .ok ⟨false⟩ := by
  simp only [realizes, Bool.and_eq_true] at h
  exact ⟨h.1, lstat_notDir os w n h.2⟩

theorem realizes_bad [DecidableEq W] (os : OS W) (w : W) (n : String) (e : Errno) (r : Forest)
    (h : realizes os w (.bad n e r) = true) :
    realizes os w r = true ∧ os.Lstat w n = .error e := by
  simp only [realizes, Bool.and_eq_true] at h
  refine ⟨h.1, ?_⟩
  have hl := h.2
  cases hx : os.Lstat w n with
  | error e => simp [hx] at hl; simp [hl]
  | ok i => simp [hx] at hl

theorem realizes_nochdir [DecidableEq W] (os : OS W) (w : W) (n : String) (e : Errno)
    (r : Forest) (h : realizes os w (.nochdir n e r) = true) :
    realizes os w r = true ∧ os.Lstat w n = .ok ⟨true⟩ ∧ os.Chdir w n = .error e := by
  simp only [realizes, Bool.and_eq_true] at h
  refine ⟨h.1.1, lstat_isDir os w n h.1.2, ?_⟩
  have hl := h.2
  cases hx : os.Chdir w n with
  | error e => simp [hx] at hl; simp [hl]
  | ok i => simp [hx] at hl

theorem realizes_noopen [DecidableEq W] (os : OS W) (w : W) (n : String) (e : Errno)
    (r : Forest) (h : realizes os w (.noopen n e r) = true) :
    realizes os w r = true ∧ os.Lstat w n = .ok ⟨true⟩ ∧
      ∃ w1, os.Chdir w n = .ok w1 ∧ os.Open w1 "." = .error e ∧ os.Chdir w1 ".." = .ok w := by
  simp only [realizes, Bool.and_eq_true] at h
  refine ⟨h.1.1, lstat_isDir os w n h.1.2, ?_⟩
  have hl := h.2
  cases hx : os.Chdir w n with
  | error e => simp [hx] at hl
  | ok w1 =>
    simp only [hx, Bool.and_eq_true] at hl
    refine ⟨w1, rfl, ?_, ?_⟩
    · cases hy : os.Open w1 "." with
      | error e => simp [hy] at hl; simp [hl.1]
      | ok i => simp [hy] at hl
    · cases hy : os.Chdir w1 ".." with
      | error e => simp [hy] at hl
      | ok i => simp [hy] at hl; simp [hl.2]

theorem realizes_dir [DecidableEq W] (os : OS W) (w : W) (n : String) (k r : Forest)
    (h : realizes os w (.dir n k r) = true) :
    realizes os w r = true ∧ os.Lstat w n = .ok ⟨true⟩ ∧
      ∃ w1 fd w2, os.Chdir w n = .ok w1 ∧ os.Open w1 "." = .ok (fd, w2) ∧
        (os.Readdirnames w2 fd).1 = k.names ∧ (os.Readdirnames w2 fd).2.1 = none ∧
        os.Close (os.Readdirnames w2 fd).2.2 fd = w1 ∧ realizes os w1 k = true ∧
        os.Chdir w1 ".." = .ok w := by
  simp only [realizes, Bool.and_eq_true] at h
  refine ⟨h.1.1, lstat_isDir os w n h.1.2, ?_⟩
  have hl := h.2
  cases hx : os.Chdir w n with
  | error e => simp [hx] at hl
  | ok w1 =>
    simp only [hx, Bool.and_eq_true] at hl
    obtain ⟨⟨ho, hk⟩, hu⟩ := hl
    have hu1 : os.Chdir w1 ".." = .ok w := by
      cases hy : os.Chdir w1 ".." with
      | error e => simp [hy] at hu
      | ok i => simp [hy] at hu; simp [hu]
    cases hy : os.Open w1 "." with
    | error e => simp [hy] at ho
    | ok i =>
      obtain ⟨fd, w2⟩ := i
      simp only [hy, Bool.and_eq_true, decide_eq_true_eq] at ho
      exact ⟨w1, fd, w2, rfl, hy, ho.1.1, ho.1.2, ho.2, hk, hu1⟩

theorem realizes_badlist [DecidableEq W] (os : OS W) (w : W) (n : String) (e : Errno)
    (k r : Forest) (h : realizes os w (.badlist n e k r) = true) :
    realizes os w r = true ∧ os.Lstat w n = .ok ⟨true⟩ ∧
      ∃ w1 fd w2, os.Chdir w n = .ok w1 ∧ os.Open w1 "." = .ok (fd, w2) ∧
        (os.Readdirnames w2 fd).1 = k.names ∧ (os.Readdirnames w2 fd).2.1 = some e ∧
        os.Close (os.Readdirnames w2 fd).2.2 fd = w1 ∧ realizes os w1 k = true ∧
        os.Chdir w1 ".." = .ok w := by
  simp only [realizes, Bool.and_eq_true] at h
  refine ⟨h.1.1, lstat_isDir os w n h.1.2, ?_⟩
  have hl := h.2
  cases hx : os.Chdir w n with
  | error e => simp [hx] at hl
  | ok w1 =>
    simp only [hx, Bool.and_eq_true] at hl
    obtain ⟨⟨ho, hk⟩, hu⟩ := hl
    have hu1 : os.Chdir w1 ".." = .ok w := by
      cases hy : os.Chdir w1 ".." with
      | error e => simp [hy] at hu
      | ok i => simp [hy] at hu; simp [hu]
    cases hy : os.Open w1 "." with
    | error e => simp [hy] at ho
    | ok i =>
      obtain ⟨fd, w2⟩ := i
      simp only [hy, Bool.and_eq_true, decide_eq_true_eq] at ho
      exact ⟨w1, fd, w2, rfl, hy, ho.1.1, ho.1.2, ho.2, hk, hu1⟩

/-! ## Runs -/

theorem mkState_eta (st : State W σ) :
    st = mkState st.s st.world ⟨st.cb, st.haderror, st.trace⟩ := rfl

theorem stateAfter_one (os : OS W) (fn : WalkFunc σ) {st st1 : State W σ}
    (h : walkiterStep os fn st = .cont st1) : stateAfter os fn 1 st = some st1 := by
  simp [stateAfter, h]

theorem stateAfter_trans (os : OS W) (fn : WalkFunc σ) {m n : Nat} :
    ∀ {st st1 st2 : State W σ}, stateAfter os fn m st = some st1 →
      stateAfter os fn n st1 = some st2 → stateAfter os fn (m + n) st = some st2 := by
  induction m with
  | zero =>
    intro st st1 st2 h1 h2
    simp only [stateAfter, Option.some.injEq] at h1
    subst h1
    simpa using h2
  | succ k ih =>
    intro st st1 st2 h1 h2
    have e : k + 1 + n = (k + n) + 1 := by omega
    rw [e]
    simp only [stateAfter] at h1 ⊢
    cases hs : walkiterStep os fn st with
    | ret r x => simp [hs] at h1
    | cont x =>
      simp only [hs] at h1 ⊢
      exact ih h1 h2

/-- Visit and pop: two more iterations. -/
theorem stateAfter_two (os : OS W) (fn : WalkFunc σ) {k : Nat} {st x y z : State W σ}
    (h : stateAfter os fn k st = some x) (h1 : walkiterStep os fn x = .cont y)
    (h2 : walkiterStep os fn y = .cont z) : stateAfter os fn (k + (1 + 1)) st = some z :=
  stateAfter_trans os fn h (stateAfter_trans os fn (stateAfter_one os fn h1)
    (stateAfter_one os fn h2))

/-- Visit, walk of the content, ascent. -/
theorem stateAfter_nested (os : OS W) (fn : WalkFunc σ) {k k2 : Nat} {st x y z v : State W σ}
    (h : stateAfter os fn k st = some x) (h1 : walkiterStep os fn x = .cont y)
    (h2 : stateAfter os fn k2 y = some z) (h3 : walkiterStep os fn z = .cont v) :
    stateAfter os fn (k + (1 + (k2 + 1))) st = some v :=
  stateAfter_trans os fn h (stateAfter_trans os fn (stateAfter_one os fn h1)
    (stateAfter_trans os fn h2 (stateAfter_one os fn h3)))

/-- A run continues from the state reached after `k` iterations. -/
theorem walkiterFrom_of_stateAfter (os : OS W) (fn : WalkFunc σ) (k : Nat) :
    ∀ (st st1 : State W σ), stateAfter os fn k st = some st1 →
      ∀ fuel, walkiterFrom os fn (k + fuel) st = walkiterFrom os fn fuel st1 := by
  induction k with
  | zero =>
    intro st st1 h fuel
    simp only [stateAfter, Option.some.injEq] at h
    subst h
    simp
  | succ n ih =>
    intro st st1 h fuel
    have e : n + 1 + fuel = (n + fuel) + 1 := by omega
    rw [e]
    simp only [stateAfter] at h
    cases hs : walkiterStep os fn st with
    | ret r x => simp [hs] at h
    | cont x =>
      simp only [hs] at h
      rw [walkiterFrom_cont os fn _ hs]
      exact ih x st1 h fuel

/-- A run that returns has gone round the loop some number of times and then
returned. -/
theorem walkiterFrom_some (os : OS W) (fn : WalkFunc σ) (fuel : Nat) :
    ∀ (st : State W σ) (r : Option GoError) (st1 : State W σ),
      walkiterFrom os fn fuel st = some (r, st1) →
      ∃ n st2, n < fuel ∧ stateAfter os fn n st = some st2 ∧
        walkiterStep os fn st2 = .ret r st1 := by
  induction fuel with
  | zero => intro st r st1 h; simp [walkiterFrom] at h
  | succ k ih =>
    intro st r st1 h
    simp only [walkiterFrom] at h
    cases hs : walkiterStep os fn st with
    | ret r2 st2 =>
      simp only [hs, Option.some.injEq, Prod.mk.injEq] at h
      exact ⟨0, st, by omega, rfl, by rw [hs, h.1, h.2]⟩
    | cont st2 =>
      simp only [hs] at h
      obtain ⟨n, st3, hn, h1, h2⟩ := ih st2 r st1 h
      exact ⟨n + 1, st3, by omega, by simp [stateAfter, hs, h1], h2⟩

/-- A run that returns also returns when it is resumed from a state it passes
through, with the same result. -/
theorem walkiterFrom_resume (os : OS W) (fn : WalkFunc σ) (k : Nat) :
    ∀ (st st1 : State W σ), stateAfter os fn k st = some st1 →
      ∀ fuel x, walkiterFrom os fn fuel st = some x →
        ∃ fuel1, walkiterFrom os fn fuel1 st1 = some x := by
  induction k with
  | zero =>
    intro st st1 h fuel x hx
    simp only [stateAfter, Option.some.injEq] at h
    subst h
    exact ⟨fuel, hx⟩
  | succ n ih =>
    intro st st1 h fuel x hx
    simp only [stateAfter] at h
    cases hs : walkiterStep os fn st with
    | ret r y => simp [hs] at h
    | cont y =>
      simp only [hs] at h
      cases fuel with
      | zero => simp [walkiterFrom] at hx
      | succ f =>
        rw [walkiterFrom_cont os fn f hs] at hx
        exact ih y st1 h f x hx

/-- A property that every iteration preserves holds after any number of
iterations. -/
theorem stateAfter_invariant (os : OS W) (fn : WalkFunc σ) (Inv : State W σ → Prop)
    (hstep : ∀ st st1, Inv st → walkiterStep os fn st = .cont st1 → Inv st1) (n : Nat) :
    ∀ st st1, Inv st → stateAfter os fn n st = some st1 → Inv st1 := by
  induction n with
  | zero => intro st st1 hi h; simp only [stateAfter, Option.some.injEq] at h; exact h ▸ hi
  | succ k ih =>
    intro st st1 hi h
    simp only [stateAfter] at h
    cases hs : walkiterStep os fn st with
    | ret r2 st2 => simp [hs] at h
    | cont st2 =>
      simp only [hs] at h
      exact ih st2 st1 (hstep st st2 hi hs) h

/-! ## The loop follows the recursive description -/

/-- Running the loop from a stack whose top part are the fresh elements of a
directory content presented by the world leads, after finitely many iterations,
to the state in which these elements are gone, the world is the same, and the
accumulator is the one computed by `walkF`. -/
theorem stateAfter_forest [DecidableEq W] (os : OS W) (fn : WalkFunc σ) (F : Forest) :
    ∀ (p : String) (w : W) (tail : List queue) (a : Acc σ), realizes os w F = true →
      ∃ k, stateAfter os fn k (mkState (fresh p F.names ++ tail) w a)
        = some (mkState tail w (walkF fn p F a)) := by
  induction F with
  | nil =>
    intro p w tail a _
    exact ⟨0, by simp [Forest.names, fresh, walkF, stateAfter]⟩
  | file n r ih =>
    intro p w tail a h
    obtain ⟨hr, hl⟩ := realizes_file os w n r h
    obtain ⟨k, hk⟩ := ih p w ({ dir := p, name := n, seen := false, cd := false } :: tail) a hr
    simp only [Forest.names, fresh_cons, List.append_assoc, List.singleton_append]
    refine ⟨k + (1 + 1), ?_⟩
    have := stateAfter_two os fn hk (step_file os fn p n tail w _ hl) (step_pop os fn p n tail w _)
    simpa only [walkF] using this
  | bad n e r ih =>
    intro p w tail a h
    obtain ⟨hr, hl⟩ := realizes_bad os w n e r h
    obtain ⟨k, hk⟩ := ih p w ({ dir := p, name := n, seen := false, cd := false } :: tail) a hr
    simp only [Forest.names, fresh_cons, List.append_assoc, List.singleton_append]
    refine ⟨k + (1 + 1), ?_⟩
    have := stateAfter_two os fn hk (step_bad os fn p n tail w _ e hl)
      (step_pop os fn p n tail w _)
    simpa only [walkF] using this
  | nochdir n e r ih =>
    intro p w tail a h
    obtain ⟨hr, hl, hcd⟩ := realizes_nochdir os w n e r h
    obtain ⟨k, hk⟩ := ih p w ({ dir := p, name := n, seen := false, cd := false } :: tail) a hr
    simp only [Forest.names, fresh_cons, List.append_assoc, List.singleton_append]
    refine ⟨k + (1 + 1), ?_⟩
    cases hc : ((walkF fn p r a).call fn (Join p n) (some ⟨true⟩) none).2 with
    | some er =>
      have := stateAfter_two os fn hk (step_dir_err os fn p n tail w _ er hl hc)
        (step_pop os fn p n tail w _)
      simpa only [walkF, hc] using this
    | none =>
      have := stateAfter_two os fn hk (step_nochdir os fn p n tail w _ e hl hc hcd)
        (step_pop os fn p n tail w _)
      simpa only [walkF, hc] using this
  | noopen n e r ih =>
    intro p w tail a h
    obtain ⟨hr, hl, w1, hcd, hop, hup⟩ := realizes_noopen os w n e r h
    obtain ⟨k, hk⟩ := ih p w ({ dir := p, name := n, seen := false, cd := false } :: tail) a hr
    simp only [Forest.names, fresh_cons, List.append_assoc, List.singleton_append]
    refine ⟨k + (1 + 1), ?_⟩
    cases hc : ((walkF fn p r a).call fn (Join p n) (some ⟨true⟩) none).2 with
    | some er =>
      have := stateAfter_two os fn hk (step_dir_err os fn p n tail w _ er hl hc)
        (step_pop os fn p n tail w _)
      simpa only [walkF, hc] using this
    | none =>
      have := stateAfter_two os fn hk (step_noopen os fn p n tail w w1 _ e hl hc hcd hop)
        (step_ascend os fn p n tail w w1 _ hup)
      simpa only [walkF, hc] using this
  | dir n kids r ihk ih =>
    intro p w tail a h
    obtain ⟨hr, hl, w1, fd, w2, hcd, hop, hnames, hnone, hclose, hkids, hup⟩ :=
      realizes_dir os w n kids r h
    obtain ⟨k, hk⟩ := ih p w ({ dir := p, name := n, seen := false, cd := false } :: tail) a hr
    simp only [Forest.names, fresh_cons, List.append_assoc, List.singleton_append]
    cases hc : ((walkF fn p r a).call fn (Join p n) (some ⟨true⟩) none).2 with
    | some er =>
      refine ⟨k + (1 + 1), ?_⟩
      have := stateAfter_two os fn hk (step_dir_err os fn p n tail w _ er hl hc)
        (step_pop os fn p n tail w _)
      simpa only [walkF, hc] using this
    | none =>
      obtain ⟨k2, hk2⟩ := ihk (Join p n) w1
        ({ dir := p, name := n, seen := true, cd := true } :: tail)
        (((walkF fn p r a).call fn (Join p n) (some ⟨true⟩) none).1.log
          (Event.chdir (Join p n) true)) hkids
      refine ⟨k + (1 + (k2 + 1)), ?_⟩
      have h1 := step_dir os fn p n tail w w1 w2 _ fd hl hc hcd hop hnone
      rw [hnames, hclose] at h1
      have := stateAfter_nested os fn hk h1 hk2 (step_ascend os fn p n tail w w1 _ hup)
      simpa only [walkF, hc] using this
  | badlist n e kids r ihk ih =>
    intro p w tail a h
    obtain ⟨hr, hl, w1, fd, w2, hcd, hop, hnames, hsome, hclose, hkids, hup⟩ :=
      realizes_badlist os w n e kids r h
    obtain ⟨k, hk⟩ := ih p w ({ dir := p, name := n, seen := false, cd := false } :: tail) a hr
    simp only [Forest.names, fresh_cons, List.append_assoc, List.singleton_append]
    cases hc : ((walkF fn p r a).call fn (Join p n) (some ⟨true⟩) none).2 with
    | some er =>
      refine ⟨k + (1 + 1), ?_⟩
      have := stateAfter_two os fn hk (step_dir_err os fn p n tail w _ er hl hc)
        (step_pop os fn p n tail w _)
      simpa only [walkF, hc] using this
    | none =>
      obtain ⟨k2, hk2⟩ := ihk (Join p n) w1
        ({ dir := p, name := n, seen := true, cd := true } :: tail)
        ((((walkF fn p r a).call fn (Join p n) (some ⟨true⟩) none).1.log
          (Event.chdir (Join p n) true)).report fn (Join p n) (some ⟨true⟩) e) hkids
      refine ⟨k + (1 + (k2 + 1)), ?_⟩
      have h1 := step_badlist os fn p n tail w w1 w2 _ fd e hl hc hcd hop hsome
      rw [hnames, hclose] at h1
      have := stateAfter_nested os fn hk h1 hk2 (step_ascend os fn p n tail w w1 _ hup)
      simpa only [walkF, hc] using this

/-- The same for runs with fuel. -/
theorem walkiterFrom_forest [DecidableEq W] (os : OS W) (fn : WalkFunc σ) (F : Forest)
    (p : String) (w : W) (tail : List queue) (a : Acc σ) (h : realizes os w F = true) :
    ∃ k, ∀ fuel, walkiterFrom os fn (k + fuel) (mkState (fresh p F.names ++ tail) w a)
      = walkiterFrom os fn fuel (mkState tail w (walkF fn p F a)) := by
  obtain ⟨k, hk⟩ := stateAfter_forest os fn F p w tail a h
  exact ⟨k, walkiterFrom_of_stateAfter os fn k _ _ hk⟩

/-- A call of `walkiter` on the fresh elements of a content presented by the
world returns, with the accumulator computed by `walkF` and the world as it was
at the call. -/
theorem walkiter_forest [DecidableEq W] (os : OS W) (fn : WalkFunc σ) (F : Forest)
    (p : String) (w : W) (c : σ) (tr : List Event) (h : realizes os w F = true) :
    ∃ fuel, walkiter os fn fuel (fresh p F.names) w c tr
      = some ((walkF fn p F ⟨c, none, tr⟩).haderror,
          mkState [] w (walkF fn p F ⟨c, none, tr⟩)) := by
  obtain ⟨k, hk⟩ := walkiterFrom_forest os fn F p w [] ⟨c, none, tr⟩ h
  refine ⟨k + 1, ?_⟩
  have h1 := hk 1
  simp only [List.append_nil] at h1
  unfold walkiter
  have e0 : ({ s := fresh p F.names, haderror := none, world := w, cb := c, trace := tr } :
      State W σ) = mkState (fresh p F.names) w ⟨c, none, tr⟩ := rfl
  rw [e0, h1, walkiterFrom_ret os fn 0 (step_empty os fn w _)]

/-- What `Walk` returns when the working directory can be opened, the parent of
the root can be entered, and the world reached presents the content `t` whose
only entry is the cleaned root. -/
theorem Walk_forest [DecidableEq W] (os : OS W) (fn : WalkFunc σ) (root : String)
    (w w1 w2 : W) (dir : Fd) (c : σ) (t : Forest)
    (hopen : os.Open w "." = .ok (dir, w1))
    (hchdir : os.Chdir (os.Fcntl w1 dir) (Dir (Clean root)) = .ok w2)
    (hroot : t.names = [Clean root])
    (hreal : realizes os w2 t = true) :
    ∃ fuel, Walk os fn fuel root w c = some
      { err := (walkF fn "" t ⟨c, none, []⟩).haderror,
        world := (match os.Fchdir (os.Close w2 dir) dir with
          | .error _ => os.Close w2 dir
          | .ok w5 => w5),
        cb := (walkF fn "" t ⟨c, none, []⟩).cb,
        trace := (walkF fn "" t ⟨c, none, []⟩).trace } := by
  obtain ⟨fuel, hf⟩ := walkiter_forest os fn t "" w2 c [] hreal
  refine ⟨fuel, ?_⟩
  have hfr : fresh "" t.names = [{ dir := "", name := Clean root, seen := false, cd := false }] := by
    rw [hroot]; rfl
  rw [hfr] at hf
  simp [Walk, WalkBody, hopen, hchdir, hf, mkState]

/-! ## Traces of the recursive description -/

theorem calledPaths_append (t u : List Event) :
    calledPaths (t ++ u) = calledPaths t ++ calledPaths u := by
  induction t with
  | nil => simp [calledPaths]
  | cons e t ih => cases e <;> simp [calledPaths, ih]

theorem walkF_nil_callback (fn : WalkFunc σ) (hnil : ∀ c p i e, (fn c p i e).2 = none)
    (F : Forest) : ∀ (p : String) (a : Acc σ), F.errorFree = true →
      (walkF fn p F a).haderror = a.haderror ∧
      calledPaths (walkF fn p F a).trace = calledPaths a.trace ++ visitOrder p F := by
  induction F with
  | nil => intro p a _; simp [walkF, visitOrder]
  | file n r ih =>
    intro p a h
    simp only [Forest.errorFree] at h
    obtain ⟨h1, h2⟩ := ih p a h
    have hc : ((walkF fn p r a).call fn (Join p n) (some ⟨false⟩) none).2 = none := hnil _ _ _ _
    simp only [walkF, hc]
    simp [h1, h2, calledPaths_append, calledPaths, visitOrder]
  | dir n k r ihk ih =>
    intro p a h
    simp only [Forest.errorFree, Bool.and_eq_true] at h
    obtain ⟨h1, h2⟩ := ih p a h.2
    have hc : ((walkF fn p r a).call fn (Join p n) (some ⟨true⟩) none).2 = none := hnil _ _ _ _
    obtain ⟨h3, h4⟩ := ihk (Join p n)
      (((walkF fn p r a).call fn (Join p n) (some ⟨true⟩) none).1.log
        (Event.chdir (Join p n) true)) h.1
    simp only [walkF, hc]
    simp [h3, h4, h1, h2, calledPaths_append, calledPaths, visitOrder]
  | bad n e r _ => intro p a h; simp [Forest.errorFree] at h
  | nochdir n e r _ => intro p a h; simp [Forest.errorFree] at h
  | noopen n e r _ => intro p a h; simp [Forest.errorFree] at h
  | badlist n e k r _ _ => intro p a h; simp [Forest.errorFree] at h

theorem visitOrder_length (F : Forest) : ∀ p, F.errorFree = true →
    (visitOrder p F).length = F.size := by
  induction F with
  | nil => intro p _; simp [visitOrder, Forest.size]
  | file n r ih => intro p h; simp only [Forest.errorFree] at h; simp [visitOrder, Forest.size, ih p h]
  | dir n k r ihk ih =>
    intro p h
    simp only [Forest.errorFree, Bool.and_eq_true] at h
    simp [visitOrder, Forest.size, ih p h.2, ihk (Join p n) h.1]
    omega
  | bad n e r _ => intro p h; simp [Forest.errorFree] at h
  | nochdir n e r _ => intro p h; simp [Forest.errorFree] at h
  | noopen n e r _ => intro p h; simp [Forest.errorFree] at h
  | badlist n e k r _ _ => intro p h; simp [Forest.errorFree] at h

theorem emptySkipped_names (sel : String → Bool) (fn : WalkFunc σ) (F : Forest) :
    ∀ p a, (emptySkipped sel fn p F a).names = F.names := by
  induction F with
  | nil => intro p a; rfl
  | file n r ih => intro p a; simp [emptySkipped, Forest.names, ih]
  | bad n e r ih => intro p a; simp [emptySkipped, Forest.names, ih]
  | nochdir n e r ih => intro p a; simp [emptySkipped, Forest.names, ih]
  | noopen n e r ih => intro p a; simp [emptySkipped, Forest.names, ih]
  | dir n k r _ ih =>
    intro p a
    simp only [emptySkipped]
    split
    · split <;> simp [Forest.names, ih]
    · simp [Forest.names, ih]
  | badlist n e k r _ ih =>
    intro p a
    simp only [emptySkipped]
    split
    · split <;> simp [Forest.names, ih]
    · simp [Forest.names, ih]

/-- Emptying the directories for which the callback returns `SkipDir` does not
change the walk. -/
theorem walkF_emptySkipped (sel : String → Bool) (fn : WalkFunc σ) (F : Forest) :
    ∀ p a, walkF fn p (emptySkipped sel fn p F a) a = walkF fn p F a := by
  induction F with
  | nil => intro p a; rfl
  | file n r ih => intro p a; simp [emptySkipped, walkF, ih]
  | bad n e r ih => intro p a; simp [emptySkipped, walkF, ih]
  | nochdir n e r ih => intro p a; simp [emptySkipped, walkF, ih]
  | noopen n e r ih => intro p a; simp [emptySkipped, walkF, ih]
  | dir n k r ihk ih =>
    intro p a
    simp only [emptySkipped]
    cases hc : ((walkF fn p r a).call fn (Join p n) (some ⟨true⟩) none).2 with
    | some e =>
      simp only
      split
      · simp only [walkF, ih, hc]
      · simp only [walkF, ih, hc]
    | none =>
      simp only [walkF, ih, hc, ihk]
  | badlist n e k r ihk ih =>
    intro p a
    simp only [emptySkipped]
    cases hc : ((walkF fn p r a).call fn (Join p n) (some ⟨true⟩) none).2 with
    | some e =>
      simp only
      split
      · simp only [walkF, ih, hc]
      · simp only [walkF, ih, hc]
    | none =>
      simp only [walkF, ih, hc, ihk]

/-- The walk of a content passes the name of every entry to the callback. -/
theorem walkF_calls_names (fn : WalkFunc σ) (F : Forest) :
    ∀ (p : String) (a : Acc σ), ∃ t, (walkF fn p F a).trace = a.trace ++ t ∧
      ∀ name ∈ F.names, Join p name ∈ calledPaths t := by
  have key : ∀ (p n : String) (r : Forest) (a b : Acc σ) (u : List Event),
      (∃ t, (walkF fn p r a).trace = a.trace ++ t ∧
        ∀ name ∈ r.names, Join p name ∈ calledPaths t) →
      b.trace = (walkF fn p r a).trace ++ u → Join p n ∈ calledPaths u →
      ∃ t, b.trace = a.trace ++ t ∧ ∀ name ∈ n :: r.names, Join p name ∈ calledPaths t := by
    intro p n r a b u ⟨t, ht, hall⟩ hb hu
    refine ⟨t ++ u, by rw [hb, ht, List.append_assoc], fun name hn => ?_⟩
    rw [calledPaths_append]
    simp only [List.mem_cons] at hn
    rcases hn with rfl | hn
    · exact List.mem_append_right _ hu
    · exact List.mem_append_left _ (hall name hn)
  have kids : ∀ (p : String) (k : Forest) (a : Acc σ) (e : Event),
      (∀ (p : String) (a : Acc σ), ∃ t, (walkF fn p k a).trace = a.trace ++ t ∧
        ∀ name ∈ k.names, Join p name ∈ calledPaths t) →
      ∃ v, ((walkF fn p k a).log e).trace = a.trace ++ v := by
    intro p k a e ihk
    obtain ⟨t, ht, _⟩ := ihk p a
    exact ⟨t ++ [e], by simp [ht]⟩
  induction F with
  | nil => intro p a; exact ⟨[], by simp [walkF], by simp [Forest.names]⟩
  | file n r ih =>
    intro p a
    refine key p n r a _ [Event.call (Join p n) (some ⟨false⟩) none
      ((walkF fn p r a).call fn (Join p n) (some ⟨false⟩) none).2] (ih p a) ?_
      (by simp [calledPaths])
    simp only [walkF]
    split <;> simp
  | bad n e r ih =>
    intro p a
    exact key p n r a _ [Event.call (Join p n) none (some (.sys e))
      ((walkF fn p r a).call fn (Join p n) none (some (.sys e))).2] (ih p a)
      (by simp only [walkF, Acc.report_trace]) (by simp [calledPaths])
  | nochdir n e r ih =>
    intro p a
    cases hc : ((walkF fn p r a).call fn (Join p n) (some ⟨true⟩) none).2 with
    | some er =>
      refine key p n r a _ [Event.call (Join p n) (some ⟨true⟩) none (some er)] (ih p a) ?_
        (by simp [calledPaths])
      simp only [walkF, hc]
      split <;> simp [hc]
    | none =>
      refine key p n r a _ (Event.call (Join p n) (some ⟨true⟩) none none :: [Event.chdir (Join p n) false,
          Event.call (Join p n) (some ⟨true⟩) (some (.sys e))
            ((((walkF fn p r a).call fn (Join p n) (some ⟨true⟩) none).1.log
              (Event.chdir (Join p n) false)).call fn (Join p n) (some ⟨true⟩)
              (some (.sys e))).2])
        (ih p a) ?_ (by simp [calledPaths])
      simp [walkF, hc]
  | noopen n e r ih =>
    intro p a
    cases hc : ((walkF fn p r a).call fn (Join p n) (some ⟨true⟩) none).2 with
    | some er =>
      refine key p n r a _ [Event.call (Join p n) (some ⟨true⟩) none (some er)] (ih p a) ?_
        (by simp [calledPaths])
      simp only [walkF, hc]
      split <;> simp [hc]
    | none =>
      refine key p n r a _ (Event.call (Join p n) (some ⟨true⟩) none none :: [Event.chdir (Join p n) true,
          Event.call (Join p n) (some ⟨true⟩) (some (.sys e))
            ((((walkF fn p r a).call fn (Join p n) (some ⟨true⟩) none).1.log
              (Event.chdir (Join p n) true)).call fn (Join p n) (some ⟨true⟩)
              (some (.sys e))).2, Event.dotdot (Join p n) true])
        (ih p a) ?_ (by simp [calledPaths])
      simp [walkF, hc]
  | dir n k r ihk ih =>
    intro p a
    cases hc : ((walkF fn p r a).call fn (Join p n) (some ⟨true⟩) none).2 with
    | some er =>
      refine key p n r a _ [Event.call (Join p n) (some ⟨true⟩) none (some er)] (ih p a) ?_
        (by simp [calledPaths])
      simp only [walkF, hc]
      split <;> simp [hc]
    | none =>
      obtain ⟨v, hv⟩ := kids (Join p n) k
        (((walkF fn p r a).call fn (Join p n) (some ⟨true⟩) none).1.log
          (Event.chdir (Join p n) true)) (Event.dotdot (Join p n) true) ihk
      refine key p n r a _ (Event.call (Join p n) (some ⟨true⟩) none none ::
        Event.chdir (Join p n) true :: v) (ih p a) ?_ (by simp [calledPaths])
      simp only [walkF, hc]
      rw [hv]
      simp [hc]
  | badlist n e k r ihk ih =>
    intro p a
    cases hc : ((walkF fn p r a).call fn (Join p n) (some ⟨true⟩) none).2 with
    | some er =>
      refine key p n r a _ [Event.call (Join p n) (some ⟨true⟩) none (some er)] (ih p a) ?_
        (by simp [calledPaths])
      simp only [walkF, hc]
      split <;> simp [hc]
    | none =>
      obtain ⟨v, hv⟩ := kids (Join p n) k
        ((((walkF fn p r a).call fn (Join p n) (some ⟨true⟩) none).1.log
          (Event.chdir (Join p n) true)).report fn (Join p n) (some ⟨true⟩) e)
        (Event.dotdot (Join p n) true) ihk
      refine key p n r a _ (Event.call (Join p n) (some ⟨true⟩) none none ::
        Event.chdir (Join p n) true :: Event.call (Join p n) (some ⟨true⟩) (some (.sys e))
          ((((walkF fn p r a).call fn (Join p n) (some ⟨true⟩) none).1.log
            (Event.chdir (Join p n) true)).call fn (Join p n) (some ⟨true⟩)
            (some (.sys e))).2 :: v) (ih p a) ?_ (by simp [calledPaths])
      simp only [walkF, hc]
      rw [hv]
      simp [hc]

/-! ## The accumulated error -/

theorem accumulate_append (t u : List Event) :
    ∀ h, accumulate h (t ++ u) = accumulate (accumulate h t) u := by
  induction t with
  | nil => intro h; rfl
  | cons e t ih =>
    intro h
    cases e with
    | call p info err ret =>
      simp only [List.cons_append, accumulate]
      split
      · exact ih _
      · split
        · exact ih _
        · split <;> exact ih _
    | chdir p ok => simpa [accumulate] using ih h
    | dotdot p ok => simpa [accumulate] using ih h

theorem aborted_append (t u : List Event) : aborted (t ++ u) = (aborted t || aborted u) := by
  induction t with
  | nil => simp [aborted]
  | cons e t ih =>
    cases e with
    | call p info err ret => simpa [aborted] using ih
    | chdir p ok => simpa [aborted] using ih
    | dotdot p ok => cases ok <;> simp [aborted, ih]

/-- The accumulator after a call that follows a successful `lstat`. -/
theorem accumulate_ordinary (h : Option GoError) (p : String) (info : FileInfo)
    (ret : Option GoError) :
    accumulate h [Event.call p (some info) none ret]
      = match ret with
        | none => h
        | some e => if info.IsDir = true ∧ e = GoError.SkipDir then h else some e := by
  cases ret with
  | none => simp [accumulate]
  | some e =>
    simp only [accumulate, Bool.and_eq_true, decide_eq_true_eq]

theorem accumulate_no_calls (t : List Event) (h : Option GoError) (hc : calledPaths t = []) :
    accumulate h t = h := by
  induction t with
  | nil => rfl
  | cons e t ih =>
    cases e with
    | call p info err ret => simp [calledPaths] at hc
    | chdir p ok => simpa [accumulate] using ih (by simpa [calledPaths] using hc)
    | dotdot p ok => simpa [accumulate] using ih (by simpa [calledPaths] using hc)

/-- The accumulated error is the starting value or what one call returned. -/
theorem accumulate_single (t : List Event) :
    ∀ h, accumulate h t = h ∨ ∃ p i e, Event.call p i e (accumulate h t) ∈ t := by
  induction t with
  | nil => intro h; exact Or.inl rfl
  | cons ev t ih =>
    have lift : ∀ (h0 h1 : Option GoError),
        (accumulate h1 t = h1 ∨ ∃ p i e, Event.call p i e (accumulate h1 t) ∈ t) →
        (h1 = h0 ∨ ∃ p i e, ev = Event.call p i e h1) →
        accumulate h1 t = h0 ∨ ∃ p i e, Event.call p i e (accumulate h1 t) ∈ ev :: t := by
      intro h0 h1 hrec hfirst
      rcases hrec with hr | ⟨p, i, e, hm⟩
      · rcases hfirst with hf | ⟨p, i, e, hf⟩
        · exact Or.inl (hr.trans hf)
        · exact Or.inr ⟨p, i, e, by rw [hr, hf]; simp⟩
      · exact Or.inr ⟨p, i, e, List.mem_cons_of_mem _ hm⟩
    intro h
    cases ev with
    | call p info err ret =>
      simp only [accumulate]
      split
      · exact lift h ret (ih ret) (Or.inr ⟨p, info, _, rfl⟩)
      · split
        · exact lift h h (ih h) (Or.inl rfl)
        · split
          · exact lift h h (ih h) (Or.inl rfl)
          · exact lift h _ (ih _) (Or.inr ⟨p, info, none, rfl⟩)
    | chdir p ok => simpa [accumulate] using lift h h (ih h) (Or.inl rfl)
    | dotdot p ok => simpa [accumulate] using lift h h (ih h) (Or.inl rfl)

/-- Events that do not replace `haderror` leave the accumulated error as it
was. -/
theorem accumulate_not_overwritten (t : List Event) :
    ∀ h, (∀ e ∈ t, overwrites e = false) → accumulate h t = h := by
  induction t with
  | nil => intro h _; rfl
  | cons e t ih =>
    intro h hno
    have he := hno e (by simp)
    have ht := ih h (fun x hx => hno x (by simp [hx]))
    cases e with
    | call p info err ret =>
      cases err with
      | some x => simp [overwrites] at he
      | none =>
        cases ret with
        | none => simpa [accumulate] using ht
        | some r =>
          simp only [overwrites] at he
          simp only [accumulate]
          split
          · exact ht
          · next hn =>
            rw [Bool.not_eq_true] at hn
            rw [hn] at he
            simp at he
    | chdir p ok => simpa [accumulate] using ht
    | dotdot p ok => simpa [accumulate] using ht

/-- One iteration that goes round again extends the trace by events without a
failed `chdir("..")` and updates `haderror` as `accumulate` says. -/
theorem step_cont_accumulate (os : OS W) (fn : WalkFunc σ) (st st1 : State W σ)
    (h : walkiterStep os fn st = .cont st1) :
    ∃ t, st1.trace = st.trace ++ t ∧ aborted t = false ∧
      st1.haderror = accumulate st.haderror t := by
  rw [mkState_eta st] at h
  revert h
  refine walkiterStep_cases os fn
    (fun o => o = Outcome.cont st1 → ∃ t, st1.trace = st.trace ++ t ∧ aborted t = false ∧
      st1.haderror = accumulate st.haderror t) st.s st.world ⟨st.cb, st.haderror, st.trace⟩
    ?_ ?_ ?_ ?_ ?_ ?_ ?_ ?_ ?_ ?_ ?_
  · intro _ h; simp at h
  · intro q next _ _ _ h
    simp only [Outcome.cont.injEq] at h
    subst h
    exact ⟨[], by simp [mkState], rfl, rfl⟩
  · intro q next w1 _ _ _ _ h
    simp only [Outcome.cont.injEq] at h
    subst h
    exact ⟨[Event.dotdot (Join q.dir q.name) true], by simp [mkState], rfl, rfl⟩
  · intro q next err _ _ _ _ h; simp at h
  · intro q next err _ _ _ h
    simp only [Outcome.cont.injEq] at h
    subst h
    exact ⟨[Event.call (Join q.dir q.name) none (some (.sys err))
        ((⟨st.cb, st.haderror, st.trace⟩ : Acc σ).call fn (Join q.dir q.name) none
          (some (.sys err))).2],
      by simp [mkState], rfl, by simp [mkState, accumulate]⟩
  · intro q next info e _ _ _ hc h
    simp only [Outcome.cont.injEq] at h
    subst h
    refine ⟨[Event.call (Join q.dir q.name) (some info) none (some e)], ?_, rfl, ?_⟩
    · split <;> simp [mkState, hc]
    · rw [accumulate_ordinary]
      by_cases hsk : info.IsDir = true ∧ e = GoError.SkipDir
      · simp [mkState, hsk]
      · simp [mkState, hsk]
  · intro q next info _ _ _ hc _ h
    simp only [Outcome.cont.injEq] at h
    subst h
    exact ⟨[Event.call (Join q.dir q.name) (some info) none none], by simp [mkState, hc], rfl,
      by simp [mkState, accumulate]⟩
  · intro q next info err _ _ _ hc _ _ h
    simp only [Outcome.cont.injEq] at h
    subst h
    exact ⟨[Event.call (Join q.dir q.name) (some info) none none,
        Event.chdir (Join q.dir q.name) false,
        Event.call (Join q.dir q.name) (some info) (some (.sys err))
          ((((⟨st.cb, st.haderror, st.trace⟩ : Acc σ).call fn (Join q.dir q.name) (some info)
            none).1.log (Event.chdir (Join q.dir q.name) false)).call fn (Join q.dir q.name)
            (some info) (some (.sys err))).2],
      by simp [mkState, hc], rfl, by simp [mkState, accumulate]⟩
  · intro q next info w1 err _ _ _ hc _ _ _ h
    simp only [Outcome.cont.injEq] at h
    subst h
    exact ⟨[Event.call (Join q.dir q.name) (some info) none none,
        Event.chdir (Join q.dir q.name) true,
        Event.call (Join q.dir q.name) (some info) (some (.sys err))
          ((((⟨st.cb, st.haderror, st.trace⟩ : Acc σ).call fn (Join q.dir q.name) (some info)
            none).1.log (Event.chdir (Join q.dir q.name) true)).call fn (Join q.dir q.name)
            (some info) (some (.sys err))).2],
      by simp [mkState, hc], rfl, by simp [mkState, accumulate]⟩
  · intro q next info w1 fd w2 _ _ _ hc _ _ _ _ h
    simp only [Outcome.cont.injEq] at h
    subst h
    exact ⟨[Event.call (Join q.dir q.name) (some info) none none,
        Event.chdir (Join q.dir q.name) true],
      by simp [mkState, hc], rfl, by simp [mkState, accumulate]⟩
  · intro q next info w1 fd w2 err _ _ _ hc _ _ _ _ h
    simp only [Outcome.cont.injEq] at h
    subst h
    exact ⟨[Event.call (Join q.dir q.name) (some info) none none,
        Event.chdir (Join q.dir q.name) true,
        Event.call (Join q.dir q.name) (some info) (some (.sys err))
          ((((⟨st.cb, st.haderror, st.trace⟩ : Acc σ).call fn (Join q.dir q.name) (some info)
            none).1.log (Event.chdir (Join q.dir q.name) true)).call fn (Join q.dir q.name)
            (some info) (some (.sys err))).2],
      by simp [mkState, hc], rfl, by simp [mkState, accumulate]⟩

/-- What an iteration that returns returns: `haderror` on the empty stack, the
error of the failed `chdir("..")` otherwise. -/
theorem step_ret (os : OS W) (fn : WalkFunc σ) (st st1 : State W σ) (r : Option GoError)
    (h : walkiterStep os fn st = .ret r st1) :
    (st.s = [] ∧ r = st.haderror ∧ st1 = st) ∨
    (∃ q next err, st.s = q :: next ∧ q.seen = true ∧ q.cd = true ∧
      os.Chdir st.world ".." = .error err ∧
      r = some (.dotdot (Join q.dir q.name) (os.Getwd st.world).1 err (os.Getwd st.world).2) ∧
      st1 = { st with trace := st.trace ++ [Event.dotdot (Join q.dir q.name) false] }) := by
  rw [mkState_eta st] at h
  revert h
  refine walkiterStep_cases os fn
    (fun o => o = Outcome.ret r st1 → (st.s = [] ∧ r = st.haderror ∧ st1 = st) ∨
      (∃ q next err, st.s = q :: next ∧ q.seen = true ∧ q.cd = true ∧
        os.Chdir st.world ".." = .error err ∧
        r = some (.dotdot (Join q.dir q.name) (os.Getwd st.world).1 err (os.Getwd st.world).2) ∧
        st1 = { st with trace := st.trace ++ [Event.dotdot (Join q.dir q.name) false] }))
    st.s st.world ⟨st.cb, st.haderror, st.trace⟩ ?_ ?_ ?_ ?_ ?_ ?_ ?_ ?_ ?_ ?_ ?_
  · intro hs h
    simp only [Outcome.ret.injEq] at h
    left
    refine ⟨hs, h.1.symm, ?_⟩
    rw [← h.2, mkState_eta st, hs]
    rfl
  · intro q next _ _ _ h; simp at h
  · intro q next w1 _ _ _ _ h; simp at h
  · intro q next err hs hseen hcd hch h
    simp only [Outcome.ret.injEq] at h
    right
    exact ⟨q, next, err, hs, hseen, hcd, hch, h.1.symm, by rw [← h.2]; rfl⟩
  · intro q next err _ _ _ h; simp at h
  · intro q next info e _ _ _ _ h; simp at h
  · intro q next info _ _ _ _ _ h; simp at h
  · intro q next info err _ _ _ _ _ _ h; simp at h
  · intro q next info w1 err _ _ _ _ _ _ _ h; simp at h
  · intro q next info w1 fd w2 _ _ _ _ _ _ _ _ h; simp at h
  · intro q next info w1 fd w2 err _ _ _ _ _ _ _ _ h; simp at h

/-- After any number of iterations the trace has grown by events without a
failed `chdir("..")`, and `haderror` is what `accumulate` computes from them. -/
theorem stateAfter_accumulate (os : OS W) (fn : WalkFunc σ) (n : Nat) :
    ∀ (st st1 : State W σ), stateAfter os fn n st = some st1 →
      ∃ t, st1.trace = st.trace ++ t ∧ aborted t = false ∧
        st1.haderror = accumulate st.haderror t := by
  induction n with
  | zero =>
    intro st st1 h
    simp only [stateAfter, Option.some.injEq] at h
    subst h
    exact ⟨[], by simp, rfl, rfl⟩
  | succ k ih =>
    intro st st1 h
    simp only [stateAfter] at h
    cases hs : walkiterStep os fn st with
    | ret r2 st2 => simp [hs] at h
    | cont st2 =>
      simp only [hs] at h
      obtain ⟨t1, h1, h2, h3⟩ := step_cont_accumulate os fn st st2 hs
      obtain ⟨t2, h4, h5, h6⟩ := ih st2 st1 h
      exact ⟨t1 ++ t2, by rw [h4, h1, List.append_assoc],
        by rw [aborted_append, h2, h5]; rfl, by rw [h6, h3, accumulate_append]⟩

/-- The value `walkiter` returns: unless a `chdir("..")` failed, it is the
accumulated error of the calls of the trace. -/
theorem walkiterFrom_accumulate (os : OS W) (fn : WalkFunc σ) (fuel : Nat)
    (st st1 : State W σ) (r : Option GoError)
    (h : walkiterFrom os fn fuel st = some (r, st1)) :
    ∃ t, st1.trace = st.trace ++ t ∧
      ((aborted t = false ∧ st1.s = [] ∧ r = accumulate st.haderror t) ∨
       (aborted t = true ∧ st1.s ≠ [] ∧ ∃ p cwd err err2, r = some (.dotdot p cwd err err2))) := by
  obtain ⟨n, st2, _, h1, h2⟩ := walkiterFrom_some os fn fuel st r st1 h
  obtain ⟨t, ht, hab, hacc⟩ := stateAfter_accumulate os fn n st st2 h1
  rcases step_ret os fn st2 st1 r h2 with ⟨hs, hr, hst⟩ | ⟨q, next, err, hs, _, _, _, hr, hst⟩
  · subst hst
    exact ⟨t, ht, Or.inl ⟨hab, hs, by rw [hr, hacc]⟩⟩
  · refine ⟨t ++ [Event.dotdot (Join q.dir q.name) false], ?_, Or.inr ⟨?_, ?_, _, _, _, _, hr⟩⟩
    · rw [hst]; simp [ht]
    · rw [aborted_append]; simp [aborted]
    · rw [hst]; simp [hs]

/-! ## Descents and ascents -/

theorem unmatched_append (t u : List Event) :
    ∀ stk, unmatched stk (t ++ u) = (unmatched stk t).bind (fun s => unmatched s u) := by
  induction t with
  | nil => intro stk; simp [unmatched]
  | cons e t ih =>
    intro stk
    cases e with
    | call p i e r => simpa [unmatched] using ih stk
    | chdir p ok => cases ok <;> simpa [unmatched] using ih _
    | dotdot p ok =>
      cases stk with
      | nil => simp [unmatched]
      | cons top stk =>
        simp only [List.cons_append, unmatched]
        split
        · exact ih _
        · rfl

theorem cdPaths_append (xs ys : List queue) : cdPaths (xs ++ ys) = cdPaths xs ++ cdPaths ys := by
  induction xs with
  | nil => rfl
  | cons q qs ih =>
    simp only [List.cons_append, cdPaths]
    split <;> simp [ih]

theorem cdPaths_fresh (p : String) (names : List String) : cdPaths (fresh p names) = [] := by
  induction names with
  | nil => rfl
  | cons n ns ih => rw [fresh_cons, cdPaths_append, ih]; simp [cdPaths]

theorem fresh_unseen (p : String) (names : List String) :
    ∀ q ∈ fresh p names, q.seen = false ∧ q.cd = false := by
  intro q hq
  simp only [fresh, List.mem_reverse, List.mem_map] at hq
  obtain ⟨n, _, rfl⟩ := hq
  exact ⟨rfl, rfl⟩

theorem Balanced_step (os : OS W) (fn : WalkFunc σ) (st : State W σ) (hb : Balanced st) :
    Balanced (walkiterStep os fn st).state := by
  obtain ⟨hf, hu⟩ := hb
  rw [mkState_eta st]
  refine walkiterStep_cases os fn (fun o => Balanced o.state) st.s st.world
    ⟨st.cb, st.haderror, st.trace⟩ ?_ ?_ ?_ ?_ ?_ ?_ ?_ ?_ ?_ ?_ ?_
  · intro hs
    exact ⟨by simp [Outcome.state, mkState], by simpa [Outcome.state, mkState, hs] using hu⟩
  · intro q next hs hseen hcd
    rw [hs] at hf hu
    refine ⟨fun x hx => hf x (by simp [Outcome.state, mkState] at hx; simp [hx]), ?_⟩
    simpa [Outcome.state, mkState, cdPaths, hcd] using hu
  · intro q next w1 hs hseen hcd _
    rw [hs] at hf hu
    refine ⟨fun x hx => hf x (by simp [Outcome.state, mkState] at hx; simp [hx]), ?_⟩
    simp only [Outcome.state, mkState, Acc.log_trace, unmatched_append, hu, cdPaths, hcd]
    simp [unmatched]
  · intro q next err hs hseen hcd _
    rw [hs] at hf hu
    refine ⟨fun x hx => hf x (by simpa [Outcome.state, mkState, hs] using hx), ?_⟩
    simp only [Outcome.state, mkState, Acc.log_trace, unmatched_append, hu, cdPaths, hcd, hs]
    simp [unmatched]
  · intro q next err hs hseen _
    rw [hs] at hf hu
    have hqcd : q.cd = false := hf q (by simp) hseen
    refine ⟨?_, ?_⟩
    · intro x hx
      simp only [Outcome.state, mkState, List.mem_cons] at hx
      rcases hx with rfl | hx
      · intro h; simp at h
      · exact hf x (by simp [hx])
    · simp only [cdPaths, hqcd] at hu
      simp [Outcome.state, mkState, unmatched_append, hu, cdPaths, hqcd, unmatched]
  · intro q next info e hs hseen _ hc
    rw [hs] at hf hu
    have hqcd : q.cd = false := hf q (by simp) hseen
    refine ⟨?_, ?_⟩
    · intro x hx
      simp only [Outcome.state, mkState, List.mem_cons] at hx
      rcases hx with rfl | hx
      · intro h; simp at h
      · exact hf x (by simp [hx])
    · simp only [cdPaths, hqcd] at hu
      split <;> simp [Outcome.state, mkState, unmatched_append, hu, cdPaths, hqcd, unmatched]
  · intro q next info hs hseen _ hc _
    rw [hs] at hf hu
    have hqcd : q.cd = false := hf q (by simp) hseen
    refine ⟨?_, ?_⟩
    · intro x hx
      simp only [Outcome.state, mkState, List.mem_cons] at hx
      rcases hx with rfl | hx
      · intro h; simp at h
      · exact hf x (by simp [hx])
    · simp only [cdPaths, hqcd] at hu
      simp [Outcome.state, mkState, unmatched_append, hu, cdPaths, hqcd, unmatched]
  · intro q next info err hs hseen _ hc _ _
    rw [hs] at hf hu
    have hqcd : q.cd = false := hf q (by simp) hseen
    refine ⟨?_, ?_⟩
    · intro x hx
      simp only [Outcome.state, mkState, List.mem_cons] at hx
      rcases hx with rfl | hx
      · intro h; simp at h
      · exact hf x (by simp [hx])
    · simp only [cdPaths, hqcd] at hu
      simp [Outcome.state, mkState, unmatched_append, hu, cdPaths, hqcd, unmatched]
  · intro q next info w1 err hs hseen _ hc _ _ _
    rw [hs] at hf hu
    have hqcd : q.cd = false := hf q (by simp) hseen
    refine ⟨?_, ?_⟩
    · intro x hx
      simp only [Outcome.state, mkState, List.mem_cons] at hx
      rcases hx with rfl | hx
      · intro h; simp at h
      · exact hf x (by simp [hx])
    · simp only [cdPaths, hqcd] at hu
      simp [Outcome.state, mkState, unmatched_append, hu, cdPaths, unmatched]
  · intro q next info w1 fd w2 hs hseen _ hc _ _ _ _
    rw [hs] at hf hu
    have hqcd : q.cd = false := hf q (by simp) hseen
    refine ⟨?_, ?_⟩
    · intro x hx
      simp only [Outcome.state, mkState, List.mem_append, List.mem_cons] at hx
      rcases hx with hx | rfl | hx
      · exact fun _ => (fresh_unseen _ _ x hx).2
      · intro h; simp at h
      · exact hf x (by simp [hx])
    · simp only [cdPaths, hqcd] at hu
      simp [Outcome.state, mkState, unmatched_append, hu, cdPaths, unmatched, cdPaths_append,
        cdPaths_fresh]
  · intro q next info w1 fd w2 err hs hseen _ hc _ _ _ _
    rw [hs] at hf hu
    have hqcd : q.cd = false := hf q (by simp) hseen
    refine ⟨?_, ?_⟩
    · intro x hx
      simp only [Outcome.state, mkState, List.mem_append, List.mem_cons] at hx
      rcases hx with hx | rfl | hx
      · exact fun _ => (fresh_unseen _ _ x hx).2
      · intro h; simp at h
      · exact hf x (by simp [hx])
    · simp only [cdPaths, hqcd] at hu
      simp [Outcome.state, mkState, unmatched_append, hu, cdPaths, unmatched, cdPaths_append,
        cdPaths_fresh]

theorem stateAfter_balanced (os : OS W) (fn : WalkFunc σ) (n : Nat) (st st1 : State W σ)
    (hb : Balanced st) (h : stateAfter os fn n st = some st1) : Balanced st1 := by
  refine stateAfter_invariant os fn Balanced ?_ n st st1 hb h
  intro x y hx hxy
  have := Balanced_step os fn x hx
  rwa [hxy] at this

theorem fresh_balanced (s : List queue) (w : W) (c : σ)
    (hfresh : ∀ q ∈ s, q.seen = false ∧ q.cd = false) :
    Balanced ({ s := s, haderror := none, world := w, cb := c, trace := [] } : State W σ) := by
  refine ⟨fun q hq _ => (hfresh q hq).2, ?_⟩
  simp only [unmatched]
  congr 1
  induction s with
  | nil => rfl
  | cons q qs ih =>
    simp only [cdPaths, (hfresh q (by simp)).2]
    exact ih (fun x hx => hfresh x (by simp [hx]))

/-- In a run of `walkiter` from fresh elements, an element that has not been
visited does not have the `cd` flag. -/
theorem reachable_unseen (os : OS W) (fn : WalkFunc σ) (s0 : List queue) (w0 : W) (c0 : σ)
    (hfresh : ∀ x ∈ s0, x.seen = false ∧ x.cd = false) (n : Nat) (st : State W σ)
    (hrun : stateAfter os fn n { s := s0, haderror := none, world := w0, cb := c0, trace := [] }
      = some st) :
    ∀ q ∈ st.s, q.seen = false → q.cd = false :=
  (stateAfter_balanced os fn n _ st (fresh_balanced s0 w0 c0 hfresh) hrun).1

/-- An iteration issues `chdir("..")` exactly when the top of the stack is a
visited element with the `cd` flag. -/
theorem step_dotdot_iff (os : OS W) (fn : WalkFunc σ) (st : State W σ) :
    (∃ p ok, (walkiterStep os fn st).state.trace = st.trace ++ [Event.dotdot p ok]) ↔
      ∃ q next, st.s = q :: next ∧ q.seen = true ∧ q.cd = true := by
  rw [mkState_eta st]
  refine walkiterStep_cases os fn
    (fun o => (∃ p ok, o.state.trace = st.trace ++ [Event.dotdot p ok]) ↔
      ∃ q next, st.s = q :: next ∧ q.seen = true ∧ q.cd = true)
    st.s st.world ⟨st.cb, st.haderror, st.trace⟩ ?_ ?_ ?_ ?_ ?_ ?_ ?_ ?_ ?_ ?_ ?_
  · intro hs; simp [Outcome.state, mkState, hs]
  · intro q next hs _ hcd; simp [Outcome.state, mkState, hs, hcd]
  · intro q next w1 hs hseen hcd _; simp [Outcome.state, mkState, hs, hseen, hcd]
  · intro q next err hs hseen hcd _; simp [Outcome.state, mkState, hs, hseen, hcd]
  · intro q next err hs hseen _; simp [Outcome.state, mkState, hs, hseen]
  · intro q next info e hs hseen _ _
    split <;> simp [Outcome.state, mkState, hs, hseen]
  · intro q next info hs hseen _ _ _; simp [Outcome.state, mkState, hs, hseen]
  · intro q next info err hs hseen _ _ _ _; simp [Outcome.state, mkState, hs, hseen]
  · intro q next info w1 err hs hseen _ _ _ _ _; simp [Outcome.state, mkState, hs, hseen]
  · intro q next info w1 fd w2 hs hseen _ _ _ _ _ _; simp [Outcome.state, mkState, hs, hseen]
  · intro q next info w1 fd w2 err hs hseen _ _ _ _ _ _
    simp [Outcome.state, mkState, hs, hseen]

/-- The first visit of an element sets its `cd` flag exactly when `lstat`
reports a directory, the callback returns nil and `chdir` into it succeeds; only
then are elements pushed and the working directory changed. -/
theorem step_visit_cd (os : OS W) (fn : WalkFunc σ) (st : State W σ) (q : queue)
    (next : List queue) (hs : st.s = q :: next) (hseen : q.seen = false) :
    ∃ st1 names b, walkiterStep os fn st = .cont st1 ∧
      st1.s = fresh (Join q.dir q.name) names ++ { q with seen := true, cd := b || q.cd } :: next ∧
      (b = true ↔ ∃ w1, os.Lstat st.world q.name = .ok ⟨true⟩ ∧
        (fn st.cb (Join q.dir q.name) (some ⟨true⟩) none).2 = none ∧
        os.Chdir st.world q.name = .ok w1) ∧
      (b = false → names = [] ∧ st1.world = st.world) := by
  rw [mkState_eta st]
  refine walkiterStep_cases os fn
    (fun o => ∃ st1 names b, o = .cont st1 ∧
      st1.s = fresh (Join q.dir q.name) names ++ { q with seen := true, cd := b || q.cd } :: next ∧
      (b = true ↔ ∃ w1, os.Lstat st.world q.name = .ok ⟨true⟩ ∧
        (fn st.cb (Join q.dir q.name) (some ⟨true⟩) none).2 = none ∧
        os.Chdir st.world q.name = .ok w1) ∧
      (b = false → names = [] ∧ st1.world = st.world))
    st.s st.world ⟨st.cb, st.haderror, st.trace⟩ ?_ ?_ ?_ ?_ ?_ ?_ ?_ ?_ ?_ ?_ ?_
  · intro h; rw [hs] at h; simp at h
  · intro q1 next1 h h2 _
    rw [hs] at h; simp only [List.cons.injEq] at h; rw [← h.1, hseen] at h2; simp at h2
  · intro q1 next1 w1 h h2 _ _
    rw [hs] at h; simp only [List.cons.injEq] at h; rw [← h.1, hseen] at h2; simp at h2
  · intro q1 next1 err h h2 _ _
    rw [hs] at h; simp only [List.cons.injEq] at h; rw [← h.1, hseen] at h2; simp at h2
  · intro q1 next1 err h _ hl
    rw [hs] at h; simp only [List.cons.injEq] at h; obtain ⟨rfl, rfl⟩ := h
    exact ⟨_, [], false, rfl, by simp [mkState, fresh], by simp [hl], fun _ => ⟨rfl, rfl⟩⟩
  · intro q1 next1 info e h _ hl hc
    rw [hs] at h; simp only [List.cons.injEq] at h; obtain ⟨rfl, rfl⟩ := h
    refine ⟨_, [], false, rfl, by simp [mkState, fresh], ?_, fun _ => ⟨rfl, rfl⟩⟩
    simp only [Bool.false_eq_true, false_iff, not_exists, not_and]
    intro w1 hl2 hc2
    rw [hl] at hl2
    simp only [Except.ok.injEq] at hl2
    subst hl2
    simp only [Acc.call] at hc
    rw [hc] at hc2
    simp at hc2
  · intro q1 next1 info h _ hl _ hd
    rw [hs] at h; simp only [List.cons.injEq] at h; obtain ⟨rfl, rfl⟩ := h
    refine ⟨_, [], false, rfl, by simp [mkState, fresh], ?_, fun _ => ⟨rfl, rfl⟩⟩
    simp only [Bool.false_eq_true, false_iff, not_exists, not_and]
    intro w1 hl2
    rw [hl] at hl2
    simp only [Except.ok.injEq] at hl2
    subst hl2
    simp at hd
  · intro q1 next1 info err h _ _ _ _ hch
    rw [hs] at h; simp only [List.cons.injEq] at h; obtain ⟨rfl, rfl⟩ := h
    exact ⟨_, [], false, rfl, by simp [mkState, fresh], by simp [hch], fun _ => ⟨rfl, rfl⟩⟩
  · intro q1 next1 info w1 err h _ hl hc hd hch _
    rw [hs] at h; simp only [List.cons.injEq] at h; obtain ⟨rfl, rfl⟩ := h
    obtain ⟨b⟩ := info
    simp only at hd
    subst hd
    exact ⟨_, [], true, rfl, by simp [mkState, fresh], by simpa [hl, hch] using hc,
      fun h => by simp at h⟩
  · intro q1 next1 info w1 fd w2 h _ hl hc hd hch _ _
    rw [hs] at h; simp only [List.cons.injEq] at h; obtain ⟨rfl, rfl⟩ := h
    obtain ⟨b⟩ := info
    simp only at hd
    subst hd
    exact ⟨_, (os.Readdirnames w2 fd).1, true, rfl, by simp [mkState],
      by simpa [hl, hch] using hc, fun h => by simp at h⟩
  · intro q1 next1 info w1 fd w2 err h _ hl hc hd hch _ _
    rw [hs] at h; simp only [List.cons.injEq] at h; obtain ⟨rfl, rfl⟩ := h
    obtain ⟨b⟩ := info
    simp only at hd
    subst hd
    exact ⟨_, (os.Readdirnames w2 fd).1, true, rfl, by simp [mkState],
      by simpa [hl, hch] using hc, fun h => by simp at h⟩

/-! ## Elements above a directory's element -/

/-- What one iteration does to the stack and the trace: a visited top element is
popped; an unvisited one is marked visited, elements may be pushed above it, and
its logical path is passed to the callback. -/
theorem step_stack (os : OS W) (fn : WalkFunc σ) (st st1 : State W σ) (x : queue)
    (rest : List queue) (h : walkiterStep os fn st = .cont st1) (hs : st.s = x :: rest) :
    (x.seen = true ∧ st1.s = rest ∧ ∃ t, st1.trace = st.trace ++ t) ∨
    (x.seen = false ∧ ∃ pushed x1 t, st1.s = pushed ++ x1 :: rest ∧ x1.seen = true ∧
      st1.trace = st.trace ++ t ∧ Join x.dir x.name ∈ calledPaths t) := by
  rw [mkState_eta st] at h
  revert h
  refine walkiterStep_cases os fn
    (fun o => o = Outcome.cont st1 →
      (x.seen = true ∧ st1.s = rest ∧ ∃ t, st1.trace = st.trace ++ t) ∨
      (x.seen = false ∧ ∃ pushed x1 t, st1.s = pushed ++ x1 :: rest ∧ x1.seen = true ∧
        st1.trace = st.trace ++ t ∧ Join x.dir x.name ∈ calledPaths t))
    st.s st.world ⟨st.cb, st.haderror, st.trace⟩ ?_ ?_ ?_ ?_ ?_ ?_ ?_ ?_ ?_ ?_ ?_
  · intro h; rw [hs] at h; simp at h
  · intro q next h hseen _ ho
    rw [hs] at h; simp only [List.cons.injEq] at h; obtain ⟨rfl, rfl⟩ := h
    simp only [Outcome.cont.injEq] at ho; subst ho
    exact Or.inl ⟨hseen, rfl, [], by simp [mkState]⟩
  · intro q next w1 h hseen _ _ ho
    rw [hs] at h; simp only [List.cons.injEq] at h; obtain ⟨rfl, rfl⟩ := h
    simp only [Outcome.cont.injEq] at ho; subst ho
    exact Or.inl ⟨hseen, rfl, _, rfl⟩
  · intro q next err _ _ _ _ ho; simp at ho
  · intro q next err h hseen _ ho
    rw [hs] at h; simp only [List.cons.injEq] at h; obtain ⟨rfl, rfl⟩ := h
    simp only [Outcome.cont.injEq] at ho; subst ho
    exact Or.inr ⟨hseen, [], _, _, rfl, rfl, rfl, by simp [calledPaths]⟩
  · intro q next info e h hseen _ hc ho
    rw [hs] at h; simp only [List.cons.injEq] at h; obtain ⟨rfl, rfl⟩ := h
    simp only [Outcome.cont.injEq] at ho; subst ho
    refine Or.inr ⟨hseen, [], _, [Event.call (Join x.dir x.name) (some info) none (some e)],
      rfl, rfl, ?_, by simp [calledPaths]⟩
    split <;> simp [mkState, hc]
  · intro q next info h hseen _ hc _ ho
    rw [hs] at h; simp only [List.cons.injEq] at h; obtain ⟨rfl, rfl⟩ := h
    simp only [Outcome.cont.injEq] at ho; subst ho
    exact Or.inr ⟨hseen, [], _, _, rfl, rfl, rfl, by simp [calledPaths]⟩
  · intro q next info err h hseen _ hc _ _ ho
    rw [hs] at h; simp only [List.cons.injEq] at h; obtain ⟨rfl, rfl⟩ := h
    simp only [Outcome.cont.injEq] at ho; subst ho
    exact Or.inr ⟨hseen, [], _, _, rfl, rfl, by simp [mkState, List.append_assoc]; rfl,
      by simp [calledPaths]⟩
  · intro q next info w1 err h hseen _ hc _ _ _ ho
    rw [hs] at h; simp only [List.cons.injEq] at h; obtain ⟨rfl, rfl⟩ := h
    simp only [Outcome.cont.injEq] at ho; subst ho
    exact Or.inr ⟨hseen, [], _, _, rfl, rfl, by simp [mkState, List.append_assoc]; rfl,
      by simp [calledPaths]⟩
  · intro q next info w1 fd w2 h hseen _ hc _ _ _ _ ho
    rw [hs] at h; simp only [List.cons.injEq] at h; obtain ⟨rfl, rfl⟩ := h
    simp only [Outcome.cont.injEq] at ho; subst ho
    exact Or.inr ⟨hseen, _, _, _, rfl, rfl, by simp [mkState, List.append_assoc]; rfl,
      by simp [calledPaths]⟩
  · intro q next info w1 fd w2 err h hseen _ hc _ _ _ _ ho
    rw [hs] at h; simp only [List.cons.injEq] at h; obtain ⟨rfl, rfl⟩ := h
    simp only [Outcome.cont.injEq] at ho; subst ho
    exact Or.inr ⟨hseen, _, _, _, rfl, rfl, by simp [mkState, List.append_assoc]; rfl,
      by simp [calledPaths]⟩

theorem Served_step (os : OS W) (fn : WalkFunc σ) (path : String) (names : List String)
    (D : queue) (next : List queue) (tr0 : List Event) (st st1 : State W σ)
    (hsv : Served path names D next tr0 st) (h : walkiterStep os fn st = .cont st1) :
    Served path names D next tr0 st1 := by
  obtain ⟨t, ht, hall⟩ := hsv
  obtain ⟨t1, ht1, _, _⟩ := step_cont_accumulate os fn st st1 h
  refine ⟨t ++ t1, by rw [ht1, ht, List.append_assoc], fun name hn => ?_⟩
  rcases hall name hn with hcalled | ⟨pre, hs, hmem⟩
  · exact Or.inl (by rw [calledPaths_append]; exact List.mem_append_left _ hcalled)
  · cases pre with
    | nil => simp at hmem
    | cons x pre1 =>
      rcases step_stack os fn st st1 x (pre1 ++ D :: next) h (by simpa using hs) with
        ⟨hseen, hs1, _⟩ | ⟨hseen, pushed, x1, t2, hs1, _, ht2, hcall⟩
      · right
        refine ⟨pre1, hs1, ?_⟩
        simp only [List.mem_cons] at hmem
        rcases hmem with hx | hx
        · rw [← hx] at hseen; simp at hseen
        · exact hx
      · simp only [List.mem_cons] at hmem
        rcases hmem with hx | hx
        · left
          have e : t2 = t1 := List.append_cancel_left (ht2.symm.trans ht1)
          rw [calledPaths_append, ← e]
          apply List.mem_append_right
          rw [← hx] at hcall
          exact hcall
        · right
          refine ⟨pushed ++ x1 :: pre1, by simp [hs1], ?_⟩
          simp [hx]

theorem Served_stateAfter (os : OS W) (fn : WalkFunc σ) (path : String) (names : List String)
    (D : queue) (next : List queue) (tr0 : List Event) (n : Nat) (st st1 : State W σ)
    (hsv : Served path names D next tr0 st) (h : stateAfter os fn n st = some st1) :
    Served path names D next tr0 st1 :=
  stateAfter_invariant os fn (Served path names D next tr0)
    (fun x y hx hxy => Served_step os fn path names D next tr0 x y hx hxy) n st st1 hsv h

/-- When nothing is left above `D`, every name has been passed to the callback. -/
theorem Served_done (path : String) (names : List String) (D : queue) (next : List queue)
    (tr0 : List Event) (st : State W σ) (hsv : Served path names D next tr0 st)
    (hlen : st.s.length ≤ next.length + 1) :
    ∃ t, st.trace = tr0 ++ t ∧ ∀ name ∈ names, Join path name ∈ calledPaths t := by
  obtain ⟨t, ht, hall⟩ := hsv
  refine ⟨t, ht, fun name hn => ?_⟩
  rcases hall name hn with h | ⟨pre, hs, hmem⟩
  · exact h
  · cases pre with
    | nil => simp at hmem
    | cons x pre1 =>
      rw [hs] at hlen
      simp at hlen
      omega

/-! ## Elements waiting on the stack -/

theorem Pending_step (os : OS W) (fn : WalkFunc σ) (elems : List queue) (tr0 : List Event)
    (st st1 : State W σ) (hp : Pending elems tr0 st) (h : walkiterStep os fn st = .cont st1) :
    Pending elems tr0 st1 := by
  obtain ⟨t, ht, hall⟩ := hp
  obtain ⟨t1, ht1, _, _⟩ := step_cont_accumulate os fn st st1 h
  refine ⟨t ++ t1, by rw [ht1, ht, List.append_assoc], fun x hx hseen => ?_⟩
  rcases hall x hx hseen with hcalled | hmem
  · exact Or.inl (by rw [calledPaths_append]; exact List.mem_append_left _ hcalled)
  · cases hst : st.s with
    | nil => rw [hst] at hmem; simp at hmem
    | cons y rest =>
      rw [hst] at hmem
      simp only [List.mem_cons] at hmem
      rcases step_stack os fn st st1 y rest h hst with
        ⟨hy, hs1, _⟩ | ⟨_, pushed, x1, t2, hs1, _, ht2, hcall⟩
      · right
        rw [hs1]
        rcases hmem with e | e
        · rw [e, hy] at hseen; simp at hseen
        · exact e
      · rcases hmem with e | e
        · left
          have e2 : t2 = t1 := List.append_cancel_left (ht2.symm.trans ht1)
          rw [calledPaths_append, ← e2, e]
          exact List.mem_append_right _ hcall
        · right
          rw [hs1]
          simp [e]

theorem Pending_stateAfter (os : OS W) (fn : WalkFunc σ) (elems : List queue)
    (tr0 : List Event) (n : Nat) (st st1 : State W σ) (hp : Pending elems tr0 st)
    (h : stateAfter os fn n st = some st1) : Pending elems tr0 st1 :=
  stateAfter_invariant os fn (Pending elems tr0)
    (fun x y hx hxy => Pending_step os fn elems tr0 x y hx hxy) n st st1 hp h

/-- A run that returns on the empty stack has passed the logical path of every
unvisited element of its first stack to the callback. -/
theorem walkiterFrom_serves (os : OS W) (fn : WalkFunc σ) (fuel : Nat) (st st1 : State W σ)
    (r : Option GoError) (t : List Event) (h : walkiterFrom os fn fuel st = some (r, st1))
    (hs : st1.s = []) (ht : st1.trace = st.trace ++ t) :
    ∀ x ∈ st.s, x.seen = false → Join x.dir x.name ∈ calledPaths t := by
  obtain ⟨n, st2, _, h1, h2⟩ := walkiterFrom_some os fn fuel st r st1 h
  have h0 : Pending st.s st.trace st := ⟨[], by simp, fun x hx _ => Or.inr hx⟩
  obtain ⟨t1, ht1, hall⟩ := Pending_stateAfter os fn st.s st.trace n st st2 h0 h1
  rcases step_ret os fn st2 st1 r h2 with ⟨hs2, _, hst⟩ | ⟨q, next, err, hs2, _, _, _, _, hst⟩
  · subst hst
    have e : t1 = t := List.append_cancel_left (ht1.symm.trans ht)
    intro x hx hseen
    rcases hall x hx hseen with hc | hm
    · rw [← e]; exact hc
    · rw [hs2] at hm; simp at hm
  · rw [hst] at hs
    simp [hs2] at hs

/-! ## The descriptor table of the executable file system -/

/-- Closing a descriptor makes `Fchdir` on its number fail. -/
theorem tableOS_Fchdir_closed (fs : List Inode) (w : World) (fd : Fd) :
    (tableOS fs).Fchdir ((tableOS fs).Close w fd) fd = .error EBADF := by
  have h : ∀ l : List (Fd × List String),
      (l.filter (fun e => decide (e.1 ≠ fd))).lookup fd = none := by
    intro l
    induction l with
    | nil => rfl
    | cons x xs ih =>
      obtain ⟨a, b⟩ := x
      by_cases hx : a = fd
      · rw [List.filter_cons_of_neg (by simpa using hx)]
        exact ih
      · rw [List.filter_cons_of_pos (by simpa using hx)]
        have hx2 : (fd == a) = false := by
          simpa using fun e => hx e.symm
        rw [List.lookup_cons, hx2]
        exact ih
  simp only [tableOS]
  rw [h]

/-! ## The walk of an error-free content presented to the seed -/

/-- When the working directory can be opened, `filepath.Dir` of the cleaned root
can be entered, and the world reached there presents, under the whole cleaned
root as a name, an error-free content `t`: for every callback that always
returns nil, `Walk` returns, the error it returns is nil, and the paths passed
to the callback are the pre-order depth-first listing of `t` with the entries of
each directory taken last listed first (`visitOrder`), one call per file or
directory, the cleaned root first.  The content is the one the seed name denotes
in the directory `Walk` has changed into, which for a root of one component is
the tree rooted at the root. -/
theorem Walk_visits_preorder [DecidableEq W] (os : OS W) (fn : WalkFunc σ) (root : String)
    (w w1 w2 : W) (dir : Fd) (c : σ) (t : Forest)
    (hopen : os.Open w "." = .ok (dir, w1))
    (hchdir : os.Chdir (os.Fcntl w1 dir) (Dir (Clean root)) = .ok w2)
    (hroot : t.names = [Clean root])
    (hfree : t.errorFree = true)
    (hreal : realizes os w2 t = true)
    (hnil : ∀ c p i e, (fn c p i e).2 = none) :
    ∃ fuel r, Walk os fn fuel root w c = some r ∧ r.err = none ∧
      calledPaths r.trace = visitOrder "" t ∧
      (calledPaths r.trace).length = t.size ∧
      (calledPaths r.trace).head? = some (Clean root) := by
  obtain ⟨fuel, hf⟩ := Walk_forest os fn root w w1 w2 dir c t hopen hchdir hroot hreal
  obtain ⟨h1, h2⟩ := walkF_nil_callback fn hnil t "" ⟨c, none, []⟩ hfree
  refine ⟨fuel, _, hf, h1, ?_, ?_, ?_⟩
  · simpa [calledPaths] using h2
  · simp only [h2, calledPaths, List.nil_append]
    exact visitOrder_length t "" hfree
  · simp only [h2, calledPaths, List.nil_append]
    cases t with
    | nil => simp [Forest.names] at hroot
    | file n r =>
      simp only [Forest.names, List.cons.injEq] at hroot
      obtain ⟨hn, hr⟩ := hroot
      cases r <;> simp [Forest.names] at hr
      simp [visitOrder, hn, Join_empty_Clean]
    | dir n k r =>
      simp only [Forest.names, List.cons.injEq] at hroot
      obtain ⟨hn, hr⟩ := hroot
      cases r <;> simp [Forest.names] at hr
      simp [visitOrder, hn, Join_empty_Clean]
    | bad n e r => simp [Forest.errorFree] at hfree
    | nochdir n e r => simp [Forest.errorFree] at hfree
    | noopen n e r => simp [Forest.errorFree] at hfree
    | badlist n e k r => simp [Forest.errorFree] at hfree

/-- The root `a` holds the directory `b`, which holds the file `c`, and the file
`d`; the hypotheses of `Walk_visits_preorder` hold in `fsA`, and the paths
passed to the callback are `a`, `a/b`, `a/b/c`, `a/d`. -/
theorem Walk_visits_preorder_witness :
    ∃ fuel r, Walk (tableOS fsA) nilFn fuel "a" wTmp () = some r ∧ r.err = none ∧
      calledPaths r.trace = ["a", "a/b", "a/b/c", "a/d"] := by
  obtain ⟨fuel, r, h1, h2, h3, _⟩ :=
    Walk_visits_preorder (tableOS fsA) nilFn "a" wTmp { cwd := ["tmp"], fds := [(3, ["tmp"])] }
      { cwd := ["tmp"], fds := [(3, ["tmp"])] } 3 () treeA (by rfl) (by rfl) (by decide)
      (by decide) (by decide) (fun _ _ _ _ => rfl)
  exact ⟨fuel, r, h1, h2, by rw [h3]; decide⟩

/-! ## C1: the walk of an error-free tree -/

/-- C1 fails on the code for a root of several components.  In `fsNested` no
system call fails on any file or directory; seen from the caller's directory
`/tmp`, the root `a/b` is the directory `/tmp/a/b`, which holds the file `c`, so
the pre-order listing of the tree rooted at the root is `a/b`, `a/b/c`.
`Walk("a/b", f)` with `f` always returning nil changes into `filepath.Dir(root)`,
which is `/tmp/a`, and there stats the seed by the whole root: `a/b` now denotes
the file `/tmp/a/a/b`.  `Walk` returns nil after one call, for `a/b` as a
non-directory; `a/b/c` is never passed.  For the root `a` of one component, in
`fsA`, the paths are `a`, `a/b`, `a/b/c`, `a/d`, as the claim says. -/
theorem Walk_nested_root_not_preorder :
    (∀ i ∈ fsNested, i.lstatErr = none ∧ i.chdirErr = none ∧ i.openErr = none ∧
      i.listErr = none ∧ i.dotdotErr = none) ∧
    Clean "a/b" = "a/b" ∧
    (resolve fsNested ["tmp"] "a/b").toOption = some ["tmp", "a", "b"] ∧
    realizes (tableOS fsNested) { cwd := ["tmp", "a"], fds := [] } treeB = true ∧
    treeB.errorFree = true ∧
    visitOrder "a" treeB = ["a/b", "a/b/c"] ∧
    (resolve fsNested ["tmp", "a"] "a/b").toOption = some ["tmp", "a", "a", "b"] ∧
    (Walk (tableOS fsNested) nilFn 12 "a/b" wTmp ()).map
        (fun r => (r.err, calledPaths r.trace, r.trace))
      = some (none, ["a/b"], [Event.call "a/b" (some ⟨false⟩) none none]) ∧
    (Walk (tableOS fsA) nilFn 12 "a" wTmp ()).map (fun r => (r.err, calledPaths r.trace))
      = some (none, ["a", "a/b", "a/b/c", "a/d"]) := by
  decide

/-! ## C2: the working directory after `Walk` -/

/-- C2 fails on the code: `Walk("/tmp/a", f)` called in `/home` returns nil with
the process in `/tmp`.  The deferred `dir.Close()` runs before the deferred
`syscall.Fchdir`, whose descriptor is closed by then, so `Fchdir` fails with
`EBADF`; whenever `Walk` returns after opening the working directory, the world
it leaves is the one its body ended in, with the saved descriptor closed. -/
theorem Walk_leaves_cwd_changed :
    wHome.cwd = ["home"] ∧
    (Walk (tableOS fsA) nilFn 12 "/tmp/a" wHome ()).map (fun r => (r.err, r.world.cwd))
      = some (none, ["tmp"]) ∧
    (∀ (fs : List Inode) (w : World) (fd : Fd),
      (tableOS fs).Fchdir ((tableOS fs).Close w fd) fd = .error EBADF) ∧
    (∀ (fs : List Inode) (fn : WalkFunc Unit) (fuel : Nat) (root : String) (w w1 : World)
      (dir : Fd) (r : Result World Unit), (tableOS fs).Open w "." = .ok (dir, w1) →
      Walk (tableOS fs) fn fuel root w () = some r →
      ∃ b, WalkBody (tableOS fs) fn fuel (Clean root) ((tableOS fs).Fcntl w1 dir) () = some b ∧
        r.world = (tableOS fs).Close b.world dir ∧ r.world.cwd = b.world.cwd) := by
  refine ⟨rfl, by decide, tableOS_Fchdir_closed, ?_⟩
  intro fs fn fuel root w w1 dir r hopen h
  simp only [Walk, hopen] at h
  cases hb : WalkBody (tableOS fs) fn fuel (Clean root) ((tableOS fs).Fcntl w1 dir) () with
  | none => simp [hb] at h
  | some b =>
    simp only [hb, tableOS_Fchdir_closed, Option.some.injEq] at h
    refine ⟨b, rfl, ?_, ?_⟩
    · rw [← h]
    · rw [← h]; rfl

/-! ## C3: `SkipDir` for a directory -/

/-- C3: in a run of `walkiter` from fresh elements, when the callback, called for
a directory after its successful `lstat`, returns `SkipDir`, the walker does not change directory (the world is
unchanged and there is no `chdir` in the trace), `haderror` is left as it was,
and the next iteration pops the element, so nothing is pushed for the directory.
The walk of a tree is the walk of the same tree in which such directories are
emptied: run on worlds that present the one and the other, `walkiter` returns
the same value after the same actions and calls. -/
theorem walkiter_skipdir_prunes [DecidableEq W] (os : OS W) (fn : WalkFunc σ)
    (s0 : List queue) (w0 : W) (c0 : σ) (n : Nat) (st : State W σ) (q : queue)
    (next : List queue) (hfresh : ∀ x ∈ s0, x.seen = false ∧ x.cd = false)
    (hrun : stateAfter os fn n { s := s0, haderror := none, world := w0, cb := c0, trace := [] }
      = some st)
    (hs : st.s = q :: next) (hseen : q.seen = false)
    (hl : os.Lstat st.world q.name = .ok ⟨true⟩)
    (hc : (fn st.cb (Join q.dir q.name) (some ⟨true⟩) none).2 = some GoError.SkipDir) :
    (∃ st1 st2, walkiterStep os fn st = .cont st1 ∧ walkiterStep os fn st1 = .cont st2 ∧
      st2 = { s := next, haderror := st.haderror, world := st.world,
              cb := (fn st.cb (Join q.dir q.name) (some ⟨true⟩) none).1,
              trace := st.trace ++ [Event.call (Join q.dir q.name) (some ⟨true⟩) none
                (some GoError.SkipDir)] }) ∧
    (∀ (sel : String → Bool) (F : Forest) (p : String) (a : Acc σ),
      walkF fn p (emptySkipped sel fn p F a) a = walkF fn p F a) ∧
    (∀ (W2 : Type) (_ : DecidableEq W2) (os2 : OS W2) (w2 : W2) (w : W) (sel : String → Bool)
      (F : Forest) (p : String) (c : σ), realizes os w F = true →
      realizes os2 w2 (emptySkipped sel fn p F ⟨c, none, []⟩) = true →
      ∃ fuel fuel2 r st1 st2,
        walkiter os fn fuel (fresh p F.names) w c [] = some (r, st1) ∧
        walkiter os2 fn fuel2 (fresh p (emptySkipped sel fn p F ⟨c, none, []⟩).names) w2 c []
          = some (r, st2) ∧
        st1.trace = st2.trace ∧ st1.cb = st2.cb ∧ st1.world = w ∧ st2.world = w2) := by
  have hcd : q.cd = false :=
    reachable_unseen os fn s0 w0 c0 hfresh n st hrun q (by rw [hs]; simp) hseen
  refine ⟨?_, fun sel => walkF_emptySkipped sel fn, ?_⟩
  · have h1 : walkiterStep os fn st = .cont
        { s := { q with seen := true } :: next, haderror := st.haderror,
          world := st.world, cb := (fn st.cb (Join q.dir q.name) (some ⟨true⟩) none).1,
          trace := st.trace ++ [Event.call (Join q.dir q.name) (some ⟨true⟩) none
            (some GoError.SkipDir)] } := by
      simp [walkiterStep, hs, hseen, hl, invoke, hc]
    refine ⟨_, _, h1, ?_, rfl⟩
    simp [walkiterStep, hcd]
  · intro W2 _ os2 w2 w sel F p c h1 h2
    obtain ⟨fuel, hf⟩ := walkiter_forest os fn F p w c [] h1
    obtain ⟨fuel2, hf2⟩ := walkiter_forest os2 fn _ p w2 c [] h2
    rw [walkF_emptySkipped] at hf2
    exact ⟨fuel, fuel2, _, _, _, hf, hf2, rfl, rfl, rfl, rfl⟩

/-- The scenario of C3: in the walk of `a` in `fsA`, the callback returns
`SkipDir` for `a/b`; the element of `a/b` is popped without a `chdir`, and
`Walk` reports `a`, `a/b`, `a/d` and returns nil. -/
theorem walkiter_skipdir_prunes_witness :
    (∃ st1 st2, walkiterStep (tableOS fsA) skipAtB
        { s := [{ dir := "a", name := "b", seen := false, cd := false },
                { dir := "a", name := "d", seen := false, cd := false },
                { dir := "", name := "a", seen := true, cd := true }],
          haderror := none, world := { cwd := ["tmp", "a"], fds := [] }, cb := (),
          trace := [Event.call "a" (some ⟨true⟩) none none, Event.chdir "a" true] }
        = .cont st1 ∧
      walkiterStep (tableOS fsA) skipAtB st1 = .cont st2 ∧
      st2.s = [{ dir := "a", name := "d", seen := false, cd := false },
               { dir := "", name := "a", seen := true, cd := true }] ∧
      st2.haderror = none ∧ st2.world = { cwd := ["tmp", "a"], fds := [] }) ∧
    (Walk (tableOS fsA) skipAtB 10 "a" wTmp ()).map (fun r => (r.err, calledPaths r.trace))
      = some (none, ["a", "a/b", "a/d"]) := by
  obtain ⟨st1, st2, h1, h2, h3⟩ := (walkiter_skipdir_prunes (tableOS fsA) skipAtB
    [seed "a"] wTmp () 1
    { s := [{ dir := "a", name := "b", seen := false, cd := false },
            { dir := "a", name := "d", seen := false, cd := false },
            { dir := "", name := "a", seen := true, cd := true }],
      haderror := none, world := { cwd := ["tmp", "a"], fds := [] }, cb := (),
      trace := [Event.call "a" (some ⟨true⟩) none none, Event.chdir "a" true] }
    { dir := "a", name := "b", seen := false, cd := false }
    [{ dir := "a", name := "d", seen := false, cd := false },
     { dir := "", name := "a", seen := true, cd := true }]
    (by decide) (by rfl) rfl rfl (by rfl) (by rfl)).1
  exact ⟨⟨st1, st2, h1, h2, by rw [h3], by rw [h3], by rw [h3]⟩, by decide⟩

/-! ## C4: the value returned -/

/-- C4 (amended): the value `walkiter` returns when no `chdir("..")` fails is
the accumulated error of the calls made, in order: a call that reports an
`lstat`, `chdir`, open or listing failure replaces the accumulated error by what
the callback returns (nil clears it); a call that follows a successful `lstat`
replaces it only when the callback returns a non-nil error that is not a
`SkipDir` for a directory, and leaves it unchanged when the callback returns
nil.  On every finite tree `walkiter` does return, and so.  The value is nil or
what one single call returned, never an aggregate. -/
theorem walkiter_returns_accumulated [DecidableEq W] (os : OS W) (fn : WalkFunc σ)
    (F : Forest) (p : String) (w : W) (c : σ) (hreal : realizes os w F = true) :
    (∃ fuel r st, walkiter os fn fuel (fresh p F.names) w c [] = some (r, st) ∧
      aborted st.trace = false ∧ r = accumulate none st.trace) ∧
    (∀ fuel (s : List queue) (w0 : W) (c0 : σ) r st,
      walkiter os fn fuel s w0 c0 [] = some (r, st) → aborted st.trace = false →
      r = accumulate none st.trace) ∧
    (∀ t : List Event, accumulate none t = none ∨
      ∃ path info err, Event.call path info err (accumulate none t) ∈ t) := by
  have hgen : ∀ fuel (s : List queue) (w0 : W) (c0 : σ) r st,
      walkiter os fn fuel s w0 c0 [] = some (r, st) →
      (aborted st.trace = false ∧ r = accumulate none st.trace) ∨
      (aborted st.trace = true ∧ st.s ≠ []) := by
    intro fuel s w0 c0 r st h
    obtain ⟨t, ht, hcase⟩ := walkiterFrom_accumulate os fn fuel _ st r h
    simp only [List.nil_append] at ht
    rcases hcase with ⟨h1, _, h3⟩ | ⟨h1, h2, _⟩
    · exact Or.inl ⟨by rw [ht]; exact h1, by rw [ht]; exact h3⟩
    · exact Or.inr ⟨by rw [ht]; exact h1, h2⟩
  refine ⟨?_, ?_, fun t => accumulate_single t none⟩
  · obtain ⟨fuel, hf⟩ := walkiter_forest os fn F p w c [] hreal
    rcases hgen fuel _ _ _ _ _ hf with ⟨h1, h2⟩ | ⟨_, h2⟩
    · exact ⟨fuel, _, _, hf, h1, h2⟩
    · exact absurd rfl h2
  · intro fuel s w0 c0 r st h hab
    rcases hgen fuel s w0 c0 r st h with ⟨_, h2⟩ | ⟨h1, _⟩
    · exact h2
    · rw [hab] at h1; exact absurd h1 (by decide)

/-- In `fsXY` with the callback that fails for `a/y`, `walkiter` returns the
accumulated error of its trace. -/
theorem walkiter_returns_accumulated_witness :
    ∃ fuel r st, walkiter (tableOS fsXY) failAtY fuel (fresh "" ["a"]) wTmp () [] = some (r, st) ∧
      aborted st.trace = false ∧ r = accumulate none st.trace :=
  (walkiter_returns_accumulated (tableOS fsXY) failAtY treeXY "" wTmp () (by decide)).1

/-- C4 as stated fails: in `/tmp/a` with files `x` and `y`, the callback returns
an error for `a/y`, then nil for `a/x`, which is its last call; `walkiter`
returns the error of `a/y`, not the nil of the last call.  No `chdir("..")`
fails. -/
theorem walkiter_result_not_last_return :
    (walkiter (tableOS fsXY) failAtY 8 [seed "a"] wTmp () []).map
        (fun x => (x.1, lastReturn none x.2.trace, aborted x.2.trace, calledPaths x.2.trace))
      = some (some (.user "boom"), none, false, ["a", "a/y", "a/x"]) := by
  decide

/-! ## C5: failures reported to the callback -/

/-- C5 (amended): in a run of `walkiter` from fresh elements, for an unvisited
element on top of the stack whose `lstat` fails, or which is a directory accepted by the callback whose `chdir`, opening
or listing fails, the callback is called with the element's logical path and
the error, and `haderror` becomes what it returns, nil if it returns nil.  The
walk is not aborted and the stack below the element is untouched.  When `lstat`
or `chdir` fails nothing is pushed and the next iteration pops the element in
the same working directory; when opening fails nothing is pushed and the next
iteration pops the element with the `chdir("..")` that undoes the `chdir`: the
walker goes on as after a childless entry.  When the listing fails, one element
is pushed for every name returned with the error, none if no name was returned. -/
theorem walkiter_error_recovery (os : OS W) (fn : WalkFunc σ) (s0 : List queue) (w0 : W)
    (c0 : σ) (n : Nat) (q : queue) (next : List queue) (w : W) (a : Acc σ)
    (hfresh : ∀ x ∈ s0, x.seen = false ∧ x.cd = false)
    (hrun : stateAfter os fn n { s := s0, haderror := none, world := w0, cb := c0, trace := [] }
      = some (mkState (q :: next) w a))
    (hseen : q.seen = false) :
    (∀ e, os.Lstat w q.name = .error e →
      walkiterStep os fn (mkState (q :: next) w a)
        = .cont (mkState ({ q with seen := true } :: next) w
            (a.report fn (Join q.dir q.name) none e)) ∧
      walkiterStep os fn (mkState ({ q with seen := true } :: next) w
          (a.report fn (Join q.dir q.name) none e))
        = .cont (mkState next w (a.report fn (Join q.dir q.name) none e))) ∧
    (∀ e, os.Lstat w q.name = .ok ⟨true⟩ →
      (a.call fn (Join q.dir q.name) (some ⟨true⟩) none).2 = none →
      os.Chdir w q.name = .error e →
      walkiterStep os fn (mkState (q :: next) w a)
        = .cont (mkState ({ q with seen := true } :: next) w
            (((a.call fn (Join q.dir q.name) (some ⟨true⟩) none).1.log
              (Event.chdir (Join q.dir q.name) false)).report fn (Join q.dir q.name)
                (some ⟨true⟩) e)) ∧
      walkiterStep os fn (mkState ({ q with seen := true } :: next) w
          (((a.call fn (Join q.dir q.name) (some ⟨true⟩) none).1.log
            (Event.chdir (Join q.dir q.name) false)).report fn (Join q.dir q.name)
              (some ⟨true⟩) e))
        = .cont (mkState next w
            (((a.call fn (Join q.dir q.name) (some ⟨true⟩) none).1.log
              (Event.chdir (Join q.dir q.name) false)).report fn (Join q.dir q.name)
                (some ⟨true⟩) e))) ∧
    (∀ e w1, os.Lstat w q.name = .ok ⟨true⟩ →
      (a.call fn (Join q.dir q.name) (some ⟨true⟩) none).2 = none →
      os.Chdir w q.name = .ok w1 → os.Open w1 "." = .error e →
      walkiterStep os fn (mkState (q :: next) w a)
        = .cont (mkState ({ q with seen := true, cd := true } :: next) w1
            (((a.call fn (Join q.dir q.name) (some ⟨true⟩) none).1.log
              (Event.chdir (Join q.dir q.name) true)).report fn (Join q.dir q.name)
                (some ⟨true⟩) e)) ∧
      ∀ w2, os.Chdir w1 ".." = .ok w2 →
        walkiterStep os fn (mkState ({ q with seen := true, cd := true } :: next) w1
            (((a.call fn (Join q.dir q.name) (some ⟨true⟩) none).1.log
              (Event.chdir (Join q.dir q.name) true)).report fn (Join q.dir q.name)
                (some ⟨true⟩) e))
          = .cont (mkState next w2
              ((((a.call fn (Join q.dir q.name) (some ⟨true⟩) none).1.log
                (Event.chdir (Join q.dir q.name) true)).report fn (Join q.dir q.name)
                  (some ⟨true⟩) e).log (Event.dotdot (Join q.dir q.name) true)))) ∧
    (∀ e w1 fd w2, os.Lstat w q.name = .ok ⟨true⟩ →
      (a.call fn (Join q.dir q.name) (some ⟨true⟩) none).2 = none →
      os.Chdir w q.name = .ok w1 → os.Open w1 "." = .ok (fd, w2) →
      (os.Readdirnames w2 fd).2.1 = some e →
      walkiterStep os fn (mkState (q :: next) w a)
        = .cont (mkState
            (fresh (Join q.dir q.name) (os.Readdirnames w2 fd).1 ++
              { q with seen := true, cd := true } :: next)
            (os.Close (os.Readdirnames w2 fd).2.2 fd)
            (((a.call fn (Join q.dir q.name) (some ⟨true⟩) none).1.log
              (Event.chdir (Join q.dir q.name) true)).report fn (Join q.dir q.name)
                (some ⟨true⟩) e)) ∧
      ((os.Readdirnames w2 fd).1 = [] → fresh (Join q.dir q.name) (os.Readdirnames w2 fd).1 = [])) ∧
    (∀ (b : Acc σ) (info : Option FileInfo) (e : Errno),
      (b.report fn (Join q.dir q.name) info e).haderror
        = (fn b.cb (Join q.dir q.name) info (some (.sys e))).2 ∧
      (b.report fn (Join q.dir q.name) info e).trace
        = b.trace ++ [Event.call (Join q.dir q.name) info (some (.sys e))
            (fn b.cb (Join q.dir q.name) info (some (.sys e))).2]) ∧
    (os.Lstat w q.name = .ok ⟨false⟩ →
      (a.call fn (Join q.dir q.name) (some ⟨false⟩) none).2 = none →
      walkiterStep os fn (mkState (q :: next) w a)
        = .cont (mkState ({ q with seen := true } :: next) w
            (a.call fn (Join q.dir q.name) (some ⟨false⟩) none).1) ∧
      walkiterStep os fn (mkState ({ q with seen := true } :: next) w
          (a.call fn (Join q.dir q.name) (some ⟨false⟩) none).1)
        = .cont (mkState next w (a.call fn (Join q.dir q.name) (some ⟨false⟩) none).1)) := by
  have hcd : q.cd = false :=
    reachable_unseen os fn s0 w0 c0 hfresh n _ hrun q (by simp [mkState]) hseen
  clear hrun
  obtain ⟨d, n, s, c⟩ := q
  simp only at hseen hcd
  subst hseen hcd
  refine ⟨?_, ?_, ?_, ?_, ?_, ?_⟩
  · intro e hl
    exact ⟨step_bad os fn d n next w a e hl, step_pop os fn d n next w _⟩
  · intro e hl hc hch
    exact ⟨step_nochdir os fn d n next w a e hl hc hch, step_pop os fn d n next w _⟩
  · intro e w1 hl hc hch hop
    exact ⟨step_noopen os fn d n next w w1 a e hl hc hch hop,
      fun w2 hup => step_ascend os fn d n next w2 w1 _ hup⟩
  · intro e w1 fd w2 hl hc hch hop hle
    exact ⟨step_badlist os fn d n next w w1 w2 a fd e hl hc hch hop hle,
      fun h => by rw [h]; rfl⟩
  · intro b info e
    exact ⟨rfl, rfl⟩
  · intro hl hc
    have h1 := step_file os fn d n next w a hl
    simp only [hc] at h1
    exact ⟨h1, step_pop os fn d n next w _⟩

/-- In `fsBad` the `lstat` of `a` fails: the callback is called with the error,
nothing is pushed, and the next iteration pops the element. -/
theorem walkiter_error_recovery_witness :
    walkiterStep (tableOS fsBad) nilFn (mkState [seed "a"] wTmp ⟨(), none, []⟩)
      = .cont (mkState [{ dir := "", name := "a", seen := true, cd := false }] wTmp
          ((⟨(), none, []⟩ : Acc Unit).report nilFn (Join "" "a") none EACCES)) ∧
    walkiterStep (tableOS fsBad) nilFn
        (mkState [{ dir := "", name := "a", seen := true, cd := false }] wTmp
          ((⟨(), none, []⟩ : Acc Unit).report nilFn (Join "" "a") none EACCES))
      = .cont (mkState [] wTmp
          ((⟨(), none, []⟩ : Acc Unit).report nilFn (Join "" "a") none EACCES)) :=
  (walkiter_error_recovery (tableOS fsBad) nilFn [seed "a"] wTmp () 0 (seed "a") [] wTmp
    ⟨(), none, []⟩ (by decide) rfl rfl).1 EACCES (by rfl)

/-- C5 as stated fails for a listing failure: in `fsCut` the listing of `a`
returns `x` and `y` with an error, the callback returns nil for the error, and
two elements are pushed for `a`; the callback is then called for `a/y` and
`a/x`, while in the same tree with `a` childless it is called for `a` only. -/
theorem listing_failure_pushes_names :
    (stateAfter (tableOS fsCut) nilFn 1 (mkState [seed "a"] wTmp ⟨(), none, []⟩)).map
        (fun st => (st.s, st.haderror))
      = some ([{ dir := "a", name := "y", seen := false, cd := false },
               { dir := "a", name := "x", seen := false, cd := false },
               { dir := "", name := "a", seen := true, cd := true }], none) ∧
    (Walk (tableOS fsCut) nilFn 12 "a" wTmp ()).map (fun r => (r.err, r.trace))
      = some (none, [Event.call "a" (some ⟨true⟩) none none, Event.chdir "a" true,
          Event.call "a" (some ⟨true⟩) (some (.sys EIO)) none,
          Event.call "a/y" (some ⟨false⟩) none none, Event.call "a/x" (some ⟨false⟩) none none,
          Event.dotdot "a" true]) ∧
    (Walk (tableOS fsChildless) nilFn 12 "a" wTmp ()).map (fun r => (r.err, r.trace))
      = some (none, [Event.call "a" (some ⟨true⟩) none none, Event.chdir "a" true,
          Event.dotdot "a" true]) := by
  decide

/-! ## C6: listings cut short -/

/-- C6: when `chdir` and open succeed and the listing of a directory returns
names together with an error, the callback is called once with the directory's
path and that error, its return is stored in `haderror` whatever it is, and one
element is pushed for every returned name, above the directory's element.  From
then on, every name has been passed to the callback as `Join` of the directory's
path and the name, or its element is still on the stack above the directory's
element; so when the directory's element is on top again, about to issue
`chdir("..")`, every name has been passed.  When the entries behind the names
are finite trees in which `chdir("..")` leads back, that moment is reached. -/
theorem walkiter_cut_listing [DecidableEq W] (os : OS W) (fn : WalkFunc σ) (q : queue)
    (next : List queue) (w w1 w2 : W) (a : Acc σ) (fd : Fd) (e : Errno)
    (hseen : q.seen = false) (hl : os.Lstat w q.name = .ok ⟨true⟩)
    (hc : (a.call fn (Join q.dir q.name) (some ⟨true⟩) none).2 = none)
    (hch : os.Chdir w q.name = .ok w1) (hop : os.Open w1 "." = .ok (fd, w2))
    (hle : (os.Readdirnames w2 fd).2.1 = some e) :
    ∃ (a1 : Acc σ) (ret : Option GoError) (S1 : State W σ),
      walkiterStep os fn (mkState (q :: next) w a) = .cont S1 ∧
      a1.trace = a.trace ++ [Event.call (Join q.dir q.name) (some ⟨true⟩) none none,
        Event.chdir (Join q.dir q.name) true,
        Event.call (Join q.dir q.name) (some ⟨true⟩) (some (.sys e)) ret] ∧
      a1.haderror = ret ∧
      S1 = mkState
        (((os.Readdirnames w2 fd).1.map (fun n =>
            ({ dir := Join q.dir q.name, name := n, seen := false, cd := false } : queue))).reverse
          ++ { q with seen := true, cd := true } :: next)
        (os.Close (os.Readdirnames w2 fd).2.2 fd) a1 ∧
      (∀ n st, stateAfter os fn n S1 = some st →
        Served (Join q.dir q.name) (os.Readdirnames w2 fd).1 { q with seen := true, cd := true }
          next a1.trace st ∧
        (st.s.length ≤ next.length + 1 → ∃ t, st.trace = a1.trace ++ t ∧
          ∀ name ∈ (os.Readdirnames w2 fd).1, Join (Join q.dir q.name) name ∈ calledPaths t)) ∧
      (∀ K : Forest, K.names = (os.Readdirnames w2 fd).1 →
        realizes os (os.Close (os.Readdirnames w2 fd).2.2 fd) K = true →
        ∃ k t, stateAfter os fn k S1
            = some (mkState ({ q with seen := true, cd := true } :: next)
                (os.Close (os.Readdirnames w2 fd).2.2 fd) (walkF fn (Join q.dir q.name) K a1)) ∧
          (walkF fn (Join q.dir q.name) K a1).trace = a1.trace ++ t ∧
          ∀ name ∈ (os.Readdirnames w2 fd).1, Join (Join q.dir q.name) name ∈ calledPaths t) := by
  have hstep : walkiterStep os fn (mkState (q :: next) w a) = .cont (mkState
      (fresh (Join q.dir q.name) (os.Readdirnames w2 fd).1 ++
        { q with seen := true, cd := true } :: next)
      (os.Close (os.Readdirnames w2 fd).2.2 fd)
      (((a.call fn (Join q.dir q.name) (some ⟨true⟩) none).1.log
        (Event.chdir (Join q.dir q.name) true)).report fn (Join q.dir q.name) (some ⟨true⟩) e)) := by
    simp only [Acc.call] at hc
    simp [walkiterStep, mkState, hseen, hl, invoke, Acc.call, hc, hch, hop, hle, Acc.log,
      Acc.report, pushNames_eq]
  refine ⟨_, _, _, hstep, ?_, rfl, rfl, ?_, ?_⟩
  · simp [hc]
  · intro n st h
    have h0 : Served (Join q.dir q.name) (os.Readdirnames w2 fd).1
        { q with seen := true, cd := true } next
        (((a.call fn (Join q.dir q.name) (some ⟨true⟩) none).1.log
          (Event.chdir (Join q.dir q.name) true)).report fn (Join q.dir q.name)
            (some ⟨true⟩) e).trace
        (mkState (fresh (Join q.dir q.name) (os.Readdirnames w2 fd).1 ++
            { q with seen := true, cd := true } :: next)
          (os.Close (os.Readdirnames w2 fd).2.2 fd)
          (((a.call fn (Join q.dir q.name) (some ⟨true⟩) none).1.log
            (Event.chdir (Join q.dir q.name) true)).report fn (Join q.dir q.name)
              (some ⟨true⟩) e)) := by
      refine ⟨[], by simp [mkState], fun name hn => Or.inr ⟨_, rfl, ?_⟩⟩
      simp only [fresh, List.mem_reverse, List.mem_map]
      exact ⟨name, hn, rfl⟩
    have h1 := Served_stateAfter os fn _ _ _ _ _ n _ st h0 h
    exact ⟨h1, fun hlen => Served_done _ _ _ _ _ st h1 hlen⟩
  · intro K hK hreal
    obtain ⟨k, hk⟩ := stateAfter_forest os fn K (Join q.dir q.name)
      (os.Close (os.Readdirnames w2 fd).2.2 fd) ({ q with seen := true, cd := true } :: next)
      (((a.call fn (Join q.dir q.name) (some ⟨true⟩) none).1.log
        (Event.chdir (Join q.dir q.name) true)).report fn (Join q.dir q.name) (some ⟨true⟩) e)
      hreal
    obtain ⟨t, ht, hall⟩ := walkF_calls_names fn K (Join q.dir q.name)
      (((a.call fn (Join q.dir q.name) (some ⟨true⟩) none).1.log
        (Event.chdir (Join q.dir q.name) true)).report fn (Join q.dir q.name) (some ⟨true⟩) e)
    rw [hK] at hk hall
    exact ⟨k, t, hk, ht, hall⟩

/-- In `fsCut` the listing of `a` returns `x` and `y` with an error: the callback
is called with the error and the elements of `y` and `x` are pushed above the
element of `a`. -/
theorem walkiter_cut_listing_witness :
    ∃ (a1 : Acc Unit) (ret : Option GoError) (S1 : State World Unit),
      walkiterStep (tableOS fsCut) nilFn (mkState [seed "a"] wTmp ⟨(), none, []⟩) = .cont S1 ∧
      a1.trace = [Event.call "a" (some ⟨true⟩) none none, Event.chdir "a" true,
        Event.call "a" (some ⟨true⟩) (some (.sys EIO)) ret] ∧
      S1.s = [{ dir := "a", name := "y", seen := false, cd := false },
              { dir := "a", name := "x", seen := false, cd := false },
              { dir := "", name := "a", seen := true, cd := true }] := by
  obtain ⟨a1, ret, S1, h1, h2, _, h4, _⟩ := walkiter_cut_listing (tableOS fsCut) nilFn (seed "a") []
    wTmp { cwd := ["tmp", "a"], fds := [] } { cwd := ["tmp", "a"], fds := [(3, ["tmp", "a"])] }
    ⟨(), none, []⟩ 3 EIO rfl (by rfl) (by rfl) (by rfl) (by rfl) (by rfl)
  refine ⟨a1, ret, S1, h1, ?_, ?_⟩
  · rw [h2]; rfl
  · rw [h4]; rfl

/-! ## C7: the fatal `chdir("..")` -/

/-- C7: when the loop reaches an element that is already visited and has its
`cd` flag set, and the `chdir("..")` it issues fails, `walkiter` returns at once
with a non-nil error, whatever `haderror` and `Getwd` are; the callback is not
called, its state is unchanged and the stack is left as it was, so none of its
elements is visited.  Conversely, an iteration returns only on the empty stack,
with `haderror`, or in this case. -/
theorem walkiter_dotdot_fatal (os : OS W) (fn : WalkFunc σ) (st : State W σ) (q : queue)
    (next : List queue) (err : Errno) (hs : st.s = q :: next) (hseen : q.seen = true)
    (hcd : q.cd = true) (hfail : os.Chdir st.world ".." = .error err) :
    (∃ e st1, (∀ fuel, walkiterFrom os fn (fuel + 1) st = some (some e, st1)) ∧
      e = GoError.dotdot (Join q.dir q.name) (os.Getwd st.world).1 err (os.Getwd st.world).2 ∧
      calledPaths st1.trace = calledPaths st.trace ∧ st1.cb = st.cb ∧ st1.s = st.s ∧
      st1.world = st.world) ∧
    (∀ (st0 st2 : State W σ) (r : Option GoError), walkiterStep os fn st0 = .ret r st2 →
      (st0.s = [] ∧ r = st0.haderror) ∨
      (∃ q0 next0 err0, st0.s = q0 :: next0 ∧ q0.seen = true ∧ q0.cd = true ∧
        os.Chdir st0.world ".." = .error err0)) := by
  constructor
  · have hstep : walkiterStep os fn st
        = .ret (some (.dotdot (Join q.dir q.name) (os.Getwd st.world).1 err (os.Getwd st.world).2))
            { st with trace := st.trace ++ [Event.dotdot (Join q.dir q.name) false] } := by
      simp [walkiterStep, hs, hseen, hcd, hfail]
    refine ⟨_, _, fun fuel => walkiterFrom_ret os fn fuel hstep, rfl, ?_, rfl, rfl, rfl⟩
    simp [calledPaths_append, calledPaths]
  · intro st0 st2 r h
    rcases step_ret os fn st0 st2 r h with ⟨h1, h2, _⟩ | ⟨q0, next0, err0, h1, h2, h3, h4, _, _⟩
    · exact Or.inl ⟨h1, h2⟩
    · exact Or.inr ⟨q0, next0, err0, h1, h2, h3, h4⟩

/-- In `fsUp` the `chdir("..")` issued for the visited directory `a` fails:
`walkiter` returns the error built from the path, the working directory and the
error, although `haderror` held another error. -/
theorem walkiter_dotdot_fatal_witness :
    ∃ e st1, (∀ fuel, walkiterFrom (tableOS fsUp) nilFn (fuel + 1)
        { s := [{ dir := "", name := "a", seen := true, cd := true }],
          haderror := some (.user "earlier"), world := { cwd := ["tmp", "a"], fds := [] },
          cb := (), trace := [] } = some (some e, st1)) ∧
      e = GoError.dotdot "a" "/tmp/a" EACCES none := by
  obtain ⟨e, st1, h1, h2, _⟩ := (walkiter_dotdot_fatal (tableOS fsUp) nilFn
    { s := [{ dir := "", name := "a", seen := true, cd := true }],
      haderror := some (.user "earlier"), world := { cwd := ["tmp", "a"], fds := [] },
      cb := (), trace := [] } { dir := "", name := "a", seen := true, cd := true } []
    EACCES rfl rfl rfl (by rfl)).1
  exact ⟨e, st1, h1, by rw [h2]; decide⟩

/-! ## C8: `SkipDir` for a non-directory -/

/-- C8: in a run of `walkiter` from fresh elements, when `lstat` reports a
non-directory and the callback returns `SkipDir` for it, the value is stored in
`haderror` like any other error, the element is popped in the next iteration,
and the loop goes on with the rest of the stack in the same working directory.
When the run started on a finite content presented by the world, `walkiter`
returns: the value returned is the error accumulated from `SkipDir` by the calls
made after the pop, which is `SkipDir` when none of them replaces `haderror`;
every unvisited element that was on the stack below the non-directory, its
siblings among them, has its path passed to the callback after the pop; and
`Walk` returns that value when the run is the one `Walk` starts.  In any run
whatever, the value returned is that accumulated error unless a `chdir("..")`
fails. -/
theorem walkiter_skipdir_on_file [DecidableEq W] (os : OS W) (fn : WalkFunc σ)
    (s0 : List queue) (w0 : W) (c0 : σ) (n : Nat) (st : State W σ) (q : queue)
    (next : List queue) (hfresh : ∀ x ∈ s0, x.seen = false ∧ x.cd = false)
    (hrun : stateAfter os fn n { s := s0, haderror := none, world := w0, cb := c0, trace := [] }
      = some st)
    (hs : st.s = q :: next) (hseen : q.seen = false)
    (hl : os.Lstat st.world q.name = .ok ⟨false⟩)
    (hc : (fn st.cb (Join q.dir q.name) (some ⟨false⟩) none).2 = some GoError.SkipDir) :
    ∃ st1 st2, walkiterStep os fn st = .cont st1 ∧ walkiterStep os fn st1 = .cont st2 ∧
      st1.haderror = some GoError.SkipDir ∧
      st2 = { s := next, haderror := some GoError.SkipDir, world := st.world,
              cb := (fn st.cb (Join q.dir q.name) (some ⟨false⟩) none).1,
              trace := st.trace ++ [Event.call (Join q.dir q.name) (some ⟨false⟩) none
                (some GoError.SkipDir)] } ∧
      (∀ (T : Forest) (p0 : String), s0 = fresh p0 T.names → realizes os w0 T = true →
        ∃ fuel r st3 t, walkiter os fn fuel s0 w0 c0 [] = some (r, st3) ∧
          st3.s = [] ∧ st3.trace = st2.trace ++ t ∧ aborted t = false ∧
          r = accumulate (some GoError.SkipDir) t ∧
          ((∀ e ∈ t, overwrites e = false) → r = some GoError.SkipDir) ∧
          (∀ x ∈ next, x.seen = false → Join x.dir x.name ∈ calledPaths t) ∧
          (∀ (root : String) (w wa : W) (dir : Fd), os.Open w "." = .ok (dir, wa) →
            os.Chdir (os.Fcntl wa dir) (Dir (Clean root)) = .ok w0 →
            s0 = [{ dir := "", name := Clean root, seen := false, cd := false }] →
            ∃ res, Walk os fn fuel root w c0 = some res ∧ res.err = r ∧
              res.trace = st3.trace)) ∧
      (∀ fuel r st3, walkiterFrom os fn fuel st2 = some (r, st3) →
        ∃ t, st3.trace = st2.trace ++ t ∧
          (aborted t = true ∨
            (r = accumulate (some GoError.SkipDir) t ∧
              ((∀ e ∈ t, overwrites e = false) → r = some GoError.SkipDir)))) := by
  have hcd : q.cd = false :=
    reachable_unseen os fn s0 w0 c0 hfresh n st hrun q (by rw [hs]; simp) hseen
  have h1 : walkiterStep os fn st = .cont
      { s := { q with seen := true } :: next, haderror := some GoError.SkipDir,
        world := st.world, cb := (fn st.cb (Join q.dir q.name) (some ⟨false⟩) none).1,
        trace := st.trace ++ [Event.call (Join q.dir q.name) (some ⟨false⟩) none
          (some GoError.SkipDir)] } := by
    simp [walkiterStep, hs, hseen, hl, invoke, hc]
  have h2 : walkiterStep os fn
      { s := { q with seen := true } :: next, haderror := some GoError.SkipDir,
        world := st.world, cb := (fn st.cb (Join q.dir q.name) (some ⟨false⟩) none).1,
        trace := st.trace ++ [Event.call (Join q.dir q.name) (some ⟨false⟩) none
          (some GoError.SkipDir)] }
      = .cont ⟨next, some GoError.SkipDir, st.world,
          (fn st.cb (Join q.dir q.name) (some ⟨false⟩) none).1,
          st.trace ++ [Event.call (Join q.dir q.name) (some ⟨false⟩) none
            (some GoError.SkipDir)]⟩ := by
    simp [walkiterStep, hcd]
  refine ⟨_, _, h1, h2, rfl, rfl, ?_, ?_⟩
  · intro T p0 hs0 hreal
    obtain ⟨fuel, hF⟩ := walkiter_forest os fn T p0 w0 c0 [] hreal
    rw [← hs0] at hF
    have hrun2 := stateAfter_two os fn hrun h1 h2
    obtain ⟨f1, hf1⟩ := walkiterFrom_resume os fn _ _ _ hrun2 fuel _ hF
    obtain ⟨t, ht, hcase⟩ := walkiterFrom_accumulate os fn f1 _ _ _ hf1
    rcases hcase with ⟨hab, hs3, hr⟩ | ⟨_, hne, _⟩
    · refine ⟨fuel, _, _, t, hF, hs3, ht, hab, hr,
        fun hno => by rw [hr]; exact accumulate_not_overwritten t _ hno,
        walkiterFrom_serves os fn f1 _ _ _ t hf1 hs3 ht, ?_⟩
      intro root w wa dir hopen hchdir hseed
      rw [hseed] at hF
      have hW : Walk os fn fuel root w c0 = some
          ⟨(walkF fn p0 T ⟨c0, none, []⟩).haderror,
           (match os.Fchdir (os.Close w0 dir) dir with
            | .error _ => os.Close w0 dir
            | .ok w5 => w5),
           (walkF fn p0 T ⟨c0, none, []⟩).cb, (walkF fn p0 T ⟨c0, none, []⟩).trace⟩ := by
        simp [Walk, WalkBody, hopen, hchdir, hF, mkState]
      exact ⟨_, hW, rfl, rfl⟩
    · exact absurd rfl hne
  · intro fuel r st3 h
    obtain ⟨t, ht, hcase⟩ := walkiterFrom_accumulate os fn fuel _ st3 r h
    refine ⟨t, ht, ?_⟩
    rcases hcase with ⟨_, _, hr⟩ | ⟨hab, _⟩
    · exact Or.inr ⟨hr, fun hno => by rw [hr]; exact accumulate_not_overwritten t _ hno⟩
    · exact Or.inl hab

/-- In the walk of `a` in `fsXY` with the callback that returns `SkipDir` for the
file `a/y` and nil otherwise, after the visit of `a` the file `a/y` is on top:
`SkipDir` is stored in `haderror` and the element is popped, leaving `a/x` on
top; the run returns, and `a/x` is passed to the callback after the pop.  `Walk`
returns `SkipDir` there, after the calls for `a`, `a/y` and `a/x`. -/
theorem walkiter_skipdir_on_file_witness :
    (∃ st1 st2, walkiterStep (tableOS fsXY) skipAtY
        { s := [{ dir := "a", name := "y", seen := false, cd := false },
                { dir := "a", name := "x", seen := false, cd := false },
                { dir := "", name := "a", seen := true, cd := true }],
          haderror := none, world := { cwd := ["tmp", "a"], fds := [] }, cb := (),
          trace := [Event.call "a" (some ⟨true⟩) none none, Event.chdir "a" true] }
        = .cont st1 ∧
      walkiterStep (tableOS fsXY) skipAtY st1 = .cont st2 ∧
      st1.haderror = some GoError.SkipDir ∧
      st2.s = [{ dir := "a", name := "x", seen := false, cd := false },
               { dir := "", name := "a", seen := true, cd := true }] ∧
      ∃ fuel r st3 t, walkiter (tableOS fsXY) skipAtY fuel [seed "a"] wTmp () [] = some (r, st3) ∧
        st3.s = [] ∧ st3.trace = st2.trace ++ t ∧ r = accumulate (some GoError.SkipDir) t ∧
        "a/x" ∈ calledPaths t) ∧
    (Walk (tableOS fsXY) skipAtY 12 "a" wTmp ()).map (fun r => (r.err, calledPaths r.trace))
      = some (some GoError.SkipDir, ["a", "a/y", "a/x"]) := by
  refine ⟨?_, by decide⟩
  obtain ⟨st1, st2, h1, h2, h3, h4, h5, _⟩ := walkiter_skipdir_on_file (tableOS fsXY) skipAtY
    [seed "a"] wTmp () 1
    { s := [{ dir := "a", name := "y", seen := false, cd := false },
            { dir := "a", name := "x", seen := false, cd := false },
            { dir := "", name := "a", seen := true, cd := true }],
      haderror := none, world := { cwd := ["tmp", "a"], fds := [] }, cb := (),
      trace := [Event.call "a" (some ⟨true⟩) none none, Event.chdir "a" true] }
    { dir := "a", name := "y", seen := false, cd := false }
    [{ dir := "a", name := "x", seen := false, cd := false },
     { dir := "", name := "a", seen := true, cd := true }]
    (by decide) (by rfl) rfl rfl (by rfl) (by rfl)
  obtain ⟨fuel, r, st3, t, k1, k2, k3, _, k5, _, k7, _⟩ := h5 treeXY "" rfl (by decide)
  exact ⟨st1, st2, h1, h2, h3, by rw [h4], fuel, r, st3, t, k1, k2, k3, k5,
    k7 { dir := "a", name := "x", seen := false, cd := false } (by simp) rfl⟩

/-! ## C9: the seed element -/

/-- C9 fails on the code: for the root `a/b`, called in `/tmp` of `fsA`, `Walk`
changes into `filepath.Dir(root)`, which is `/tmp/a`, and seeds the stack with
the whole root as name.  At the `lstat` of the seed the name `a/b` denotes
`/tmp/a/a/b`, which does not exist, while the logical path `a/b` handed to the
callback denotes the directory `/tmp/a/b` in the caller's directory; the
callback is told that `a/b` cannot be stat'ed and nothing is walked.  In
`fsShadow`, where `/tmp/a/a/b` is a file, no call fails and the callback is told
that `a/b` is a non-directory; the directory `/tmp/a/b` is not walked either. -/
theorem Walk_relative_root_misresolved :
    Clean "a/b" = "a/b" ∧ Dir "a/b" = "a" ∧
    ((tableOS fsA).Chdir wTmp "a").toOption.map (fun w => w.cwd) = some ["tmp", "a"] ∧
    (resolve fsA ["tmp", "a"] "a/b").toOption = none ∧
    (resolve fsA ["tmp"] (Join "" "a/b")).toOption = some ["tmp", "a", "b"] ∧
    (Walk (tableOS fsA) nilFn 12 "a/b" wTmp ()).map (fun r => (r.err, r.trace))
      = some (none, [Event.call "a/b" none (some (.sys ENOENT)) none]) ∧
    (resolve fsShadow ["tmp", "a"] "a/b").toOption = some ["tmp", "a", "a", "b"] ∧
    (resolve fsShadow ["tmp"] (Join "" "a/b")).toOption = some ["tmp", "a", "b"] ∧
    (Walk (tableOS fsShadow) nilFn 12 "a/b" wTmp ()).map (fun r => (r.err, r.trace))
      = some (none, [Event.call "a/b" (some ⟨false⟩) none none]) := by
  decide

/-! ## C10: descents and ascents are balanced -/

/-- C10: in every run of `walkiter` from a stack of fresh elements, at every
moment and at the return, the successful `chdir`s that no `chdir("..")` has
undone are exactly those of the stack elements with the `cd` flag, innermost
first, and every `chdir("..")` is issued by the element whose `chdir` is the
innermost one not undone; when `walkiter` returns without a failed
`chdir("..")` every successful `chdir` has been undone, once.  An iteration
issues `chdir("..")` exactly when the top of the stack is a visited element with
the `cd` flag, so after everything pushed above it has been popped, and that
element is popped by the same iteration unless `walkiter` returns.  The first
visit sets the `cd` flag exactly when `lstat` reports a directory, the callback
returns nil and `chdir` succeeds, whatever opening and listing do; otherwise it
pushes nothing, leaves the working directory alone, and the element is popped
without a `chdir("..")`.  On a finite tree where
`chdir("..")` leads back, `walkiter` returns in the working directory it was
called in. -/
theorem walkiter_chdir_balance [DecidableEq W] (os : OS W) (fn : WalkFunc σ)
    (s : List queue) (w : W) (c : σ) (hfresh : ∀ q ∈ s, q.seen = false ∧ q.cd = false) :
    (∀ n st, stateAfter os fn n { s := s, haderror := none, world := w, cb := c, trace := [] }
        = some st →
      unmatched [] st.trace = some (cdPaths st.s) ∧ ∀ q ∈ st.s, q.seen = false → q.cd = false) ∧
    (∀ fuel r st, walkiter os fn fuel s w c [] = some (r, st) →
      unmatched [] st.trace = some (cdPaths st.s) ∧
      (aborted st.trace = false → unmatched [] st.trace = some [])) ∧
    (∀ st : State W σ,
      (∃ p ok, (walkiterStep os fn st).state.trace = st.trace ++ [Event.dotdot p ok]) ↔
        ∃ q next, st.s = q :: next ∧ q.seen = true ∧ q.cd = true) ∧
    (∀ (st : State W σ) (q : queue) (next : List queue), st.s = q :: next → q.seen = false →
      ∃ st1 names b, walkiterStep os fn st = .cont st1 ∧
        st1.s = fresh (Join q.dir q.name) names ++
          { q with seen := true, cd := b || q.cd } :: next ∧
        (b = true ↔ ∃ w1, os.Lstat st.world q.name = .ok ⟨true⟩ ∧
          (fn st.cb (Join q.dir q.name) (some ⟨true⟩) none).2 = none ∧
          os.Chdir st.world q.name = .ok w1) ∧
        (b = false → names = [] ∧ st1.world = st.world)) ∧
    (∀ (st : State W σ) (q : queue) (next : List queue), st.s = q :: next → q.seen = true →
      (q.cd = false → walkiterStep os fn st = .cont { st with s := next }) ∧
      (q.cd = true →
        (∃ w1, os.Chdir st.world ".." = .ok w1 ∧
          walkiterStep os fn st = .cont ⟨next, st.haderror, w1, st.cb,
            st.trace ++ [Event.dotdot (Join q.dir q.name) true]⟩) ∨
        (∃ err r st1, os.Chdir st.world ".." = .error err ∧
          walkiterStep os fn st = .ret r st1))) ∧
    (∀ (F : Forest) (p : String), s = fresh p F.names → realizes os w F = true →
      ∃ fuel r st, walkiter os fn fuel s w c [] = some (r, st) ∧ st.world = w ∧
        aborted st.trace = false) := by
  have hb0 := fresh_balanced s w c hfresh
  have hpop : ∀ (st : State W σ) (q : queue) (next : List queue), st.s = q :: next →
      q.seen = true →
      (q.cd = false → walkiterStep os fn st = .cont { st with s := next }) ∧
      (q.cd = true →
        (∃ w1, os.Chdir st.world ".." = .ok w1 ∧
          walkiterStep os fn st = .cont ⟨next, st.haderror, w1, st.cb,
            st.trace ++ [Event.dotdot (Join q.dir q.name) true]⟩) ∨
        (∃ err r st1, os.Chdir st.world ".." = .error err ∧
          walkiterStep os fn st = .ret r st1)) := by
    intro st q next hs hseen
    refine ⟨fun hcd => by simp [walkiterStep, hs, hseen, hcd], fun hcd => ?_⟩
    cases hch : os.Chdir st.world ".." with
    | ok w1 => exact Or.inl ⟨w1, rfl, by simp [walkiterStep, hs, hseen, hcd, hch]⟩
    | error err =>
      exact Or.inr ⟨err, some (.dotdot (Join q.dir q.name) (os.Getwd st.world).1 err
          (os.Getwd st.world).2),
        { st with trace := st.trace ++ [Event.dotdot (Join q.dir q.name) false] }, rfl,
        by simp [walkiterStep, hs, hseen, hcd, hch]⟩
  have hret : ∀ fuel r st, walkiter os fn fuel s w c [] = some (r, st) →
      unmatched [] st.trace = some (cdPaths st.s) ∧
      (aborted st.trace = false → unmatched [] st.trace = some []) := by
    intro fuel r st h
    obtain ⟨n, st2, _, h1, h2⟩ := walkiterFrom_some os fn fuel _ r st h
    have hb2 := stateAfter_balanced os fn n _ st2 hb0 h1
    have hb3 := Balanced_step os fn st2 hb2
    rw [h2] at hb3
    refine ⟨hb3.2, fun hab => ?_⟩
    obtain ⟨t, ht, hcase⟩ := walkiterFrom_accumulate os fn fuel _ st r h
    simp only [List.nil_append] at ht
    rcases hcase with ⟨_, hs, _⟩ | ⟨h3, _⟩
    · have := hb3.2
      simp only [Outcome.state] at this
      rw [this, hs]; rfl
    · rw [ht, h3] at hab; exact absurd hab (by decide)
  refine ⟨fun n st h => ?_, hret, step_dotdot_iff os fn, step_visit_cd os fn, hpop, ?_⟩
  · have hb := stateAfter_balanced os fn n _ st hb0 h
    exact ⟨hb.2, hb.1⟩
  · intro F p hs hreal
    obtain ⟨fuel, hf⟩ := walkiter_forest os fn F p w c [] hreal
    rw [← hs] at hf
    refine ⟨fuel, _, _, hf, rfl, ?_⟩
    obtain ⟨t, ht, hcase⟩ := walkiterFrom_accumulate os fn fuel _ _ _ hf
    simp only [List.nil_append] at ht
    rcases hcase with ⟨h3, _, _⟩ | ⟨_, h4, _⟩
    · rw [ht]; exact h3
    · exact absurd rfl h4

/-- The walk of `a` in `fsA` from a fresh seed returns in `/tmp`, where it was
called, with no failed `chdir("..")`. -/
theorem walkiter_chdir_balance_witness :
    ∃ fuel r st, walkiter (tableOS fsA) nilFn fuel [seed "a"] wTmp () [] = some (r, st) ∧
      st.world = wTmp ∧ aborted st.trace = false :=
  (walkiter_chdir_balance (tableOS fsA) nilFn [seed "a"] wTmp () (by decide)).2.2.2.2.2
    treeA "" rfl (by decide)

end WalkGo
